import Mathlib

/-!
Seam carving simulator: embedding of `SeamCarvingSimulator.cpp`.

The C++ program works on `std::vector<int>` buffers holding a row-major
`width × height` grid.  The embedding below follows the source statement by
statement:

* a `std::vector<int>` is a `List Int`;
* `v[i]` (read) and `v[i] = x` (write) outside the vector are undefined in
  C++; here they make the whole computation return `none`, so a result
  `some _` certifies that every access was inside its vector;
* an `int` is a 32-bit two's complement integer: every subtraction, `abs` and
  addition on values is followed by `wrapInt`, which reduces the exact result
  modulo `2^32` into `[-2^31, 2^31)`, the result the compiled program holds
  when the exact one does not fit (C++ itself leaves signed overflow
  undefined); a theorem about exact values carries the hypothesis that they fit;
* `width`, `height` and the loop counters are `Nat` (the loops only run
  with non-negative counters, and every subtraction written below is
  guarded by the same test as in the source);
* a counting `for` loop is the structural recursion `forUp` / `forDown`.
-/

namespace SeamCarving

/-! ## Vectors and loops -/

/-- Read `v[i]`; fails when `i` is outside the vector. -/
def readAt (v : List Int) (i : Nat) : Option Int := v[i]?

/-- Write `v[i] = x`; fails when `i` is outside the vector. -/
def writeAt (v : List Int) (i : Nat) (x : Int) : Option (List Int) :=
  if i < v.length then some (v.set i x) else none

/-- The loop `for (i = start; <n more iterations>; i++) s = body i s`. -/
def forUp {σ : Type} (body : Nat → σ → Option σ) : Nat → Nat → σ → Option σ
  | 0, _, s => some s
  | n + 1, i, s => (body i s).bind (forUp body n (i + 1))

/-- The loop `for (y = n; y > 0; y--) s = body y s`. -/
def forDown {σ : Type} (body : Nat → σ → Option σ) : Nat → σ → Option σ
  | 0, s => some s
  | y + 1, s => (body (y + 1) s).bind (forDown body y)

/-! ## `calculateEnergy` and `computeEnergyMap` (lines 10-46) -/

/-- The value a 32-bit `int` holds for the exact result `x`: `x` reduced modulo `2^32`
into `[-2^31, 2^31)`. -/
def wrapInt (x : Int) : Int := (x + 2147483648) % 4294967296 - 2147483648

/-- Lines 10-18: `energy += abs(pixel - neighbor)` over all neighbours, each of the
subtraction, `abs` and the addition being an `int` operation. -/
def calculateEnergy (pixel : Int) (neighbors : List Int) : Int :=
  neighbors.foldl
    (fun energy neighbor => wrapInt (energy + wrapInt |wrapInt (pixel - neighbor)|)) 0

/-- One guarded `neighbors.push_back(inputImage[i])` (lines 28-39). -/
def pushIf (cond : Bool) (inputImage : List Int) (i : Nat) (neighbors : List Int) :
    Option (List Int) :=
  if cond then (readAt inputImage i).map (fun v => neighbors ++ [v]) else some neighbors

/-- Lines 27-39: the neighbour vector collected for pixel `(x, y)`. -/
def collectNeighbors (inputImage : List Int) (width height x y : Nat) : Option (List Int) :=
  (pushIf (x > 0) inputImage (y * width + (x - 1)) []).bind fun n1 =>
  (pushIf (x < width - 1) inputImage (y * width + (x + 1)) n1).bind fun n2 =>
  (pushIf (y > 0) inputImage ((y - 1) * width + x) n2).bind fun n3 =>
  pushIf (y < height - 1) inputImage ((y + 1) * width + x) n3

/-- Lines 26-43: the body of the inner loop of `computeEnergyMap`. -/
def energyCell (inputImage : List Int) (width height y x : Nat) (energyMap : List Int) :
    Option (List Int) :=
  (collectNeighbors inputImage width height x y).bind fun neighbors =>
  (readAt inputImage (y * width + x)).bind fun pixel =>
  writeAt energyMap (y * width + x) (calculateEnergy pixel neighbors)

/-- Lines 21-46: `computeEnergyMap`; the result is the final `energyMap`. -/
def computeEnergyMap (inputImage energyMap : List Int) (width height : Nat) :
    Option (List Int) :=
  forUp (fun y em => forUp (energyCell inputImage width height y) width 0 em) height 0 energyMap

/-! ## `removeMinEnergyPath` (lines 50-93) -/

/-- Line 54: `cumulativeEnergyMap[x] = energyMap[x]`. -/
def copyCell (energyMap : List Int) (x : Nat) (cum : List Int) : Option (List Int) :=
  (readAt energyMap x).bind fun e => writeAt cum x e

/-- One guarded `minEnergy = std::min(minEnergy, cumulativeEnergyMap[i])` (lines 59-64). -/
def minIf (cond : Bool) (cum : List Int) (i : Nat) (minEnergy : Int) : Option Int :=
  if cond then (readAt cum i).map (fun c => min minEnergy c) else some minEnergy

/-- Lines 58-65: the body of the inner loop of the dynamic program. -/
def cumCell (energyMap : List Int) (width y x : Nat) (cum : List Int) : Option (List Int) :=
  (readAt cum ((y - 1) * width + x)).bind fun m0 =>
  (minIf (x > 0) cum ((y - 1) * width + (x - 1)) m0).bind fun m1 =>
  (minIf (x < width - 1) cum ((y - 1) * width + (x + 1)) m1).bind fun m2 =>
  (readAt energyMap (y * width + x)).bind fun e =>
  writeAt cum (y * width + x) (wrapInt (e + m2))

/-- Lines 52-67: the cumulative energy map built by `removeMinEnergyPath`. -/
def cumulativeEnergy (energyMap : List Int) (width height : Nat) : Option (List Int) :=
  (forUp (copyCell energyMap) width 0 (List.replicate (width * height) 0)).bind fun cum =>
  forUp (fun y c => forUp (cumCell energyMap width y) width 0 c) (height - 1) 1 cum

/-- Lines 72-74: the body of the seed search. -/
def seedStep (cum : List Int) (width height x idx : Nat) : Option Nat :=
  (readAt cum ((height - 1) * width + x)).bind fun a =>
  (readAt cum ((height - 1) * width + idx)).map fun b =>
  if a < b then x else idx

/-- Lines 70-75: `minEnergyPathStartIndex` after the seed search. -/
def seedIndex (cum : List Int) (width height : Nat) : Option Nat :=
  forUp (seedStep cum width height) (width - 1) 1 0

/-- Line 80: `image[y * width + x] = image[y * width + x + 1]`. -/
def shiftCell (width y x : Nat) (image : List Int) : Option (List Int) :=
  (readAt image (y * width + x + 1)).bind fun v => writeAt image (y * width + x) v

/-- Lines 79-87: everything the loop body does to `image` in row `y`. -/
def shiftRow (width y idx : Nat) (image : List Int) : Option (List Int) :=
  (forUp (shiftCell width y) (width - 1 - idx) idx image).bind fun img1 =>
  (if idx > 0 then
      (readAt img1 (y * width + idx)).bind fun v => writeAt img1 (y * width + idx - 1) v
    else some img1).bind fun img2 =>
  if idx < width - 1 then
    (readAt img2 (y * width + idx + 1)).bind fun v => writeAt img2 (y * width + idx) v
  else some img2

/-- Line 88: the column tracked for row `y - 1`, from the column `idx` of row `y`. -/
def nextIndex (cum : List Int) (width y idx : Nat) : Option Nat :=
  (readAt cum ((y - 1) * width + idx)).bind fun a =>
  (readAt cum ((y - 1) * width + idx + 1)).map fun b =>
  idx + (if a < b then 0 else 1)

/-- Lines 79-88: the body of the removal loop on the state
`(image, minEnergyPathStartIndex)`. -/
def removeBody (cum : List Int) (width y : Nat) (s : List Int × Nat) :
    Option (List Int × Nat) :=
  (shiftRow width y s.2 s.1).bind fun img =>
  (nextIndex cum width y s.2).map fun idx => (img, idx)

/-- Line 92: `image.erase(image.begin(), image.begin() + width)`. -/
def eraseFirst (image : List Int) (width : Nat) : Option (List Int) :=
  if width ≤ image.length then some (image.drop width) else none

/-- Lines 50-93: `removeMinEnergyPath`; the result is the final `image`. -/
def removeMinEnergyPath (image energyMap : List Int) (width height : Nat) :
    Option (List Int) :=
  (cumulativeEnergy energyMap width height).bind fun cum =>
  (seedIndex cum width height).bind fun seed =>
  (forDown (removeBody cum width) (height - 1) (image, seed)).bind fun s =>
  eraseFirst s.1 width

/-- The columns held by `minEnergyPathStartIndex` while the removal loop walks
from row `y` up to row 0 (line 88 repeated), listed from row `y` to row 0. -/
def seamTrace (cum : List Int) (width : Nat) : Nat → Nat → Option (List Nat)
  | 0, idx => some [idx]
  | y + 1, idx =>
    (nextIndex cum width (y + 1) idx).bind fun idx' =>
    (seamTrace cum width y idx').map fun rest => idx :: rest

/-- The seam of `removeMinEnergyPath`: the seed column of the bottom row followed
by the tracked column of every row above it, listed from row `height - 1` to row 0. -/
def tracedSeam (energyMap : List Int) (width height : Nat) : Option (List Nat) :=
  (cumulativeEnergy energyMap width height).bind fun cum =>
  (seedIndex cum width height).bind fun seed =>
  seamTrace cum width (height - 1) seed

/-! # Specification-side definitions -/

/-! ## Reading a grid -/

/-- The value stored for column `x` of row `y` in a row-major grid of width `width`. -/
def cell (g : List Int) (width x y : Nat) : Int := g.getD (y * width + x) 0

/-- Row `y` of a row-major grid of width `width`. -/
def gridRow (g : List Int) (width y : Nat) : List Int := (g.drop (y * width)).take width

/-- Sum of the absolute differences between pixel `(x, y)` and those of its four
neighbours `(x-1,y)`, `(x+1,y)`, `(x,y-1)`, `(x,y+1)` that lie inside the grid. -/
def neighbourDiffSum (g : List Int) (width height x y : Nat) : Int :=
  (if 0 < x then |cell g width x y - cell g width (x - 1) y| else 0)
  + (if x + 1 < width then |cell g width x y - cell g width (x + 1) y| else 0)
  + (if 0 < y then |cell g width x y - cell g width x (y - 1)| else 0)
  + (if y + 1 < height then |cell g width x y - cell g width x (y + 1)| else 0)

/-- The neighbours of pixel `(x, y)` that lie inside the grid, in the order left,
right, up, down. -/
def neighboursOf (g : List Int) (width height x y : Nat) : List Int :=
  (if 0 < x then [cell g width (x - 1) y] else [])
  ++ (if x + 1 < width then [cell g width (x + 1) y] else [])
  ++ (if 0 < y then [cell g width x (y - 1)] else [])
  ++ (if y + 1 < height then [cell g width x (y + 1)] else [])

/-- The exact sum of the absolute differences between `pixel` and the `neighbors`. -/
def absDiffSum (pixel : Int) (neighbors : List Int) : Int :=
  (neighbors.map fun neighbor => |pixel - neighbor|).sum

/-- The exact value of the recurrence of lines 52-67 for column `x` of row `y`, in
unbounded arithmetic (row 0 is line 54, the other rows lines 58-65). -/
def cumAt (energyMap : List Int) (width : Nat) : Nat → Nat → Int
  | 0, x => energyMap.getD x 0
  | y + 1, x =>
    let m0 := cumAt energyMap width y x
    let m1 := if x > 0 then min m0 (cumAt energyMap width y (x - 1)) else m0
    let m2 := if x < width - 1 then min m1 (cumAt energyMap width y (x + 1)) else m1
    energyMap.getD ((y + 1) * width + x) 0 + m2

/-- The value the dynamic program of lines 52-67 stores for column `x` of row `y`,
as a function of the energy grid alone: the recurrence of `cumAt` with the `int`
addition of line 65. -/
def cumAtInt (energyMap : List Int) (width : Nat) : Nat → Nat → Int
  | 0, x => energyMap.getD x 0
  | y + 1, x =>
    let m0 := cumAtInt energyMap width y x
    let m1 := if x > 0 then min m0 (cumAtInt energyMap width y (x - 1)) else m0
    let m2 := if x < width - 1 then min m1 (cumAtInt energyMap width y (x + 1)) else m1
    wrapInt (energyMap.getD ((y + 1) * width + x) 0 + m2)

/-- The value `cumAtInt` gives for flat position `i`. -/
def cumFlat (energyMap : List Int) (width i : Nat) : Int :=
  cumAtInt energyMap width (i / width) (i % width)

/-- The cumulative values of the neighbours `(x-1,y-1)`, `(x,y-1)`, `(x+1,y-1)` of
cell `(x, y)` whose column lies in `[0, width)`. -/
def upNeighbours (cum : List Int) (width x y : Nat) : List Int :=
  (if 0 < x then [cell cum width (x - 1) (y - 1)] else [])
  ++ [cell cum width x (y - 1)]
  ++ (if x + 1 < width then [cell cum width (x + 1) (y - 1)] else [])

/-- A connected path from row 0 down to row `y` ending at column `x`: `p k` is the
column picked in row `k`, every column is in range, and the columns of two
consecutive rows differ by at most 1. -/
def ConnectedPath (width y x : Nat) (p : Nat → Nat) : Prop :=
  (∀ k, k ≤ y → p k < width) ∧
  (∀ k, k < y → p k ≤ p (k + 1) + 1 ∧ p (k + 1) ≤ p k + 1) ∧
  p y = x

/-- Sum of the energies along the path `p` from row 0 to row `y`. -/
def pathEnergy (energyMap : List Int) (width y : Nat) (p : Nat → Nat) : Int :=
  ∑ k in Finset.range (y + 1), cell energyMap width (p k) k

/-- Two columns that differ by at most 1. -/
def Adjacent (a b : Nat) : Prop := a ≤ b + 1 ∧ b ≤ a + 1

/-- Sum of the energies along a seam listed from its bottom row up to row 0
(the entry followed by `k` further entries belongs to row `k`). -/
def seamEnergy (energyMap : List Int) (width : Nat) : List Nat → Int
  | [] => 0
  | c :: rest => cell energyMap width c rest.length + seamEnergy energyMap width rest

/-! ## Loop invariants -/

/-- A grid filled up to flat position `p` with the values of `F`. -/
def FilledTo (F : Nat → Int) (len p : Nat) (v : List Int) : Prop :=
  v.length = len ∧ ∀ i, i < p → v[i]? = some (F i)

/-- The value `computeEnergyMap` stores at flat position `i`. -/
def energyFlat (inputImage : List Int) (width height i : Nat) : Int :=
  calculateEnergy (cell inputImage width (i % width) (i / width))
    (neighboursOf inputImage width height (i % width) (i / width))

/-! ## Shapes of the trace and of the removal loop -/

/-- Every upward step of a seam listed from row `y` up to row 0 is the one of line 88:
from column `a` of a row `y ≥ 1` the next column is `a` when the cumulative value of
`(a, y-1)` is below the value at flat index `(y-1) * width + a + 1`, and `a + 1`
otherwise. -/
def StepsByComparison (cum : List Int) (width : Nat) : Nat → List Nat → Prop
  | y, a :: b :: rest =>
    b = (if cell cum width a (y - 1) < cum.getD ((y - 1) * width + a + 1) 0 then a else a + 1)
      ∧ StepsByComparison cum width (y - 1) (b :: rest)
  | _, _ => True

/-- The vector `b` has the length of `a` and the same first `width` elements (row 0). -/
def KeepsFirstRow (width : Nat) (a b : List Int) : Prop :=
  b.length = a.length ∧ ∀ i, i < width → b[i]? = a[i]?

/-! # Theorems -/

/-! ## Vectors and loops: basic facts -/

theorem readAt_of_lt {v : List Int} {i : Nat} (h : i < v.length) :
    readAt v i = some (v.getD i 0) := by
  simp [readAt, List.getD_eq_getElem?_getD, List.getElem?_eq_getElem h]

theorem readAt_of_getElem? {v : List Int} {i : Nat} {a : Int} (h : v[i]? = some a) :
    readAt v i = some a := h

theorem writeAt_of_lt {v : List Int} {i : Nat} (x : Int) (h : i < v.length) :
    writeAt v i x = some (v.set i x) := by
  simp [writeAt, h]

theorem getD_of_getElem? {v : List Int} {i : Nat} {a : Int} (h : v[i]? = some a) :
    v.getD i 0 = a := by
  simp [List.getD_eq_getElem?_getD, h]

theorem getElem?_of_lt {v : List Int} {i : Nat} (h : i < v.length) :
    v[i]? = some (v.getD i 0) := by
  simp [List.getD_eq_getElem?_getD, List.getElem?_eq_getElem h]

/-- Total-correctness rule for `forUp`: an invariant kept by every iteration holds at the end. -/
theorem forUp_inv {σ : Type} (body : Nat → σ → Option σ) (P : Nat → σ → Prop) :
    ∀ (n i0 : Nat) (s0 : σ), P i0 s0 →
      (∀ i s, i0 ≤ i → i < i0 + n → P i s → ∃ s', body i s = some s' ∧ P (i + 1) s') →
      ∃ s', forUp body n i0 s0 = some s' ∧ P (i0 + n) s' := by
  intro n
  induction n with
  | zero => intro i0 s0 h0 _; exact ⟨s0, rfl, by simpa using h0⟩
  | succ n ih =>
    intro i0 s0 h0 hstep
    obtain ⟨s1, hb, h1⟩ := hstep i0 s0 (Nat.le_refl _) (by omega) h0
    obtain ⟨s2, hf, h2⟩ := ih (i0 + 1) s1 h1 (fun i s hi hlt hP => hstep i s (by omega) (by omega) hP)
    refine ⟨s2, ?_, ?_⟩
    · simp [forUp, hb, hf]
    · have : i0 + (n + 1) = i0 + 1 + n := by omega
      rw [this]; exact h2

/-- Total-correctness rule for `forDown`. -/
theorem forDown_inv {σ : Type} (body : Nat → σ → Option σ) (P : Nat → σ → Prop) :
    ∀ (n : Nat) (s0 : σ), P n s0 →
      (∀ y s, y < n → P (y + 1) s → ∃ s', body (y + 1) s = some s' ∧ P y s') →
      ∃ s', forDown body n s0 = some s' ∧ P 0 s' := by
  intro n
  induction n with
  | zero => intro s0 h0 _; exact ⟨s0, rfl, h0⟩
  | succ n ih =>
    intro s0 h0 hstep
    obtain ⟨s1, hb, h1⟩ := hstep n s0 (by omega) h0
    obtain ⟨s2, hf, h2⟩ := ih s1 h1 (fun y s hy hP => hstep y s (by omega) hP)
    exact ⟨s2, by simp [forDown, hb, hf], h2⟩

/-! ## Flat indices -/

theorem flat_lt {w h x y : Nat} (hx : x < w) (hy : y < h) : y * w + x < w * h := by
  have h1 : (y + 1) * w ≤ h * w := Nat.mul_le_mul_right w hy
  have h2 : (y + 1) * w = y * w + w := by ring
  have h3 : h * w = w * h := Nat.mul_comm _ _
  omega

theorem flat_div {w x : Nat} (y : Nat) (hx : x < w) : (y * w + x) / w = y := by
  have hw : 0 < w := by omega
  rw [Nat.add_comm, Nat.add_mul_div_right _ _ hw, Nat.div_eq_of_lt hx, Nat.zero_add]

theorem flat_mod {w x : Nat} (y : Nat) (hx : x < w) : (y * w + x) % w = x := by
  rw [Nat.add_comm, Nat.add_mul_mod_self_right, Nat.mod_eq_of_lt hx]

theorem FilledTo.write {F : Nat → Int} {len p : Nat} {v : List Int}
    (hv : FilledTo F len p v) (hp : p < len) :
    FilledTo F len (p + 1) (v.set p (F p)) := by
  refine ⟨by simp [hv.1], ?_⟩
  intro i hi
  by_cases hip : p = i
  · subst hip
    rw [List.getElem?_set_self (by rw [hv.1]; exact hp)]
  · rw [List.getElem?_set_ne hip]
    exact hv.2 i (by omega)

/-! ## 32-bit arithmetic -/

theorem wrapInt_of_fits {x : Int} (h1 : -2147483648 ≤ x) (h2 : x ≤ 2147483647) :
    wrapInt x = x := by
  unfold wrapInt
  omega

theorem absDiffSum_nonneg (pixel : Int) (neighbors : List Int) :
    0 ≤ absDiffSum pixel neighbors := by
  unfold absDiffSum
  induction neighbors with
  | nil => simp
  | cons n rest ih =>
    simp only [List.map_cons, List.sum_cons]
    exact add_nonneg (abs_nonneg _) ih

theorem foldl_energy_exact (pixel : Int) :
    ∀ (neighbors : List Int) (acc : Int), 0 ≤ acc →
      acc + absDiffSum pixel neighbors ≤ 2147483647 →
      neighbors.foldl
        (fun energy neighbor => wrapInt (energy + wrapInt |wrapInt (pixel - neighbor)|)) acc
        = acc + absDiffSum pixel neighbors := by
  intro neighbors
  induction neighbors with
  | nil => intro acc _ _; simp [absDiffSum]
  | cons n rest ih =>
    intro acc hacc hfit
    have hrest := absDiffSum_nonneg pixel rest
    have hsum : absDiffSum pixel (n :: rest) = |pixel - n| + absDiffSum pixel rest := by
      simp [absDiffSum]
    rw [hsum] at hfit
    have habs : 0 ≤ |pixel - n| := abs_nonneg _
    have hd : |pixel - n| ≤ 2147483647 := by linarith
    have hd' := abs_le.mp hd
    have e1 : wrapInt (pixel - n) = pixel - n :=
      wrapInt_of_fits (by linarith [hd'.1]) hd'.2
    have e2 : wrapInt |pixel - n| = |pixel - n| := wrapInt_of_fits (by linarith) hd
    have e3 : wrapInt (acc + |pixel - n|) = acc + |pixel - n| :=
      wrapInt_of_fits (by linarith) (by linarith)
    simp only [List.foldl_cons, e1, e2, e3]
    rw [ih (acc + |pixel - n|) (by linarith) (by linarith), hsum]
    ring

/-- While the exact sum fits in an `int`, `calculateEnergy` returns it. -/
theorem calculateEnergy_exact {pixel : Int} {neighbors : List Int}
    (hfit : absDiffSum pixel neighbors ≤ 2147483647) :
    calculateEnergy pixel neighbors = absDiffSum pixel neighbors := by
  unfold calculateEnergy
  rw [foldl_energy_exact pixel neighbors 0 (le_refl 0) (by simpa using hfit)]
  simp

theorem neighbourDiffSum_eq (g : List Int) (w h x y : Nat) :
    neighbourDiffSum g w h x y = absDiffSum (cell g w x y) (neighboursOf g w h x y) := by
  unfold neighbourDiffSum absDiffSum neighboursOf
  by_cases c1 : 0 < x <;> by_cases c2 : x + 1 < w <;> by_cases c3 : 0 < y <;>
    by_cases c4 : y + 1 < h <;> simp [c1, c2, c3, c4] <;> ring

/-! ## `computeEnergyMap` -/

theorem pushIf_true {img : List Int} {i : Nat} (ns : List Int) (h : i < img.length) :
    pushIf true img i ns = some (ns ++ [img.getD i 0]) := by
  simp [pushIf, readAt_of_lt h]

theorem pushIf_false (img : List Int) (i : Nat) (ns : List Int) :
    pushIf false img i ns = some ns := rfl

theorem energyCell_eq {img : List Int} {w h x y : Nat} (em : List Int)
    (hlen : img.length = w * h) (hx : x < w) (hy : y < h) (hem : y * w + x < em.length) :
    energyCell img w h y x em = some (em.set (y * w + x)
      (calculateEnergy (cell img w x y) (neighboursOf img w h x y))) := by
  have b0 : y * w + x < img.length := by rw [hlen]; exact flat_lt hx hy
  unfold energyCell collectNeighbors
  have e1 : (pushIf (decide (x > 0)) img (y * w + (x - 1)) []) =
      some (if 0 < x then [cell img w (x - 1) y] else []) := by
    by_cases c : 0 < x
    · have : y * w + (x - 1) < img.length := by omega
      simp [c, pushIf_true _ this, cell]
    · simp [c, pushIf_false]
  have e2 : ∀ ns, (pushIf (decide (x < w - 1)) img (y * w + (x + 1)) ns) =
      some (ns ++ if x + 1 < w then [cell img w (x + 1) y] else []) := by
    intro ns
    by_cases c : x + 1 < w
    · have c' : x < w - 1 := by omega
      have : y * w + (x + 1) < img.length := by rw [hlen]; exact flat_lt c hy
      simp [c, c', pushIf_true _ this, cell]
    · have c' : ¬ x < w - 1 := by omega
      simp [c, c', pushIf_false]
  have e3 : ∀ ns, (pushIf (decide (y > 0)) img ((y - 1) * w + x) ns) =
      some (ns ++ if 0 < y then [cell img w x (y - 1)] else []) := by
    intro ns
    by_cases c : 0 < y
    · have : (y - 1) * w + x < img.length := by
        rw [hlen]; exact flat_lt hx (by omega)
      simp [c, pushIf_true _ this, cell]
    · simp [c, pushIf_false]
  have e4 : ∀ ns, (pushIf (decide (y < h - 1)) img ((y + 1) * w + x) ns) =
      some (ns ++ if y + 1 < h then [cell img w x (y + 1)] else []) := by
    intro ns
    by_cases c : y + 1 < h
    · have c' : y < h - 1 := by omega
      have : (y + 1) * w + x < img.length := by rw [hlen]; exact flat_lt hx c
      simp [c, c', pushIf_true _ this, cell]
    · have c' : ¬ y < h - 1 := by omega
      simp [c, c', pushIf_false]
  rw [e1]
  simp only [Option.some_bind, Option.bind_eq_bind, e2, e3, e4, readAt_of_lt b0,
    writeAt_of_lt _ hem]
  rfl

theorem computeEnergyMap_filled {img em : List Int} {w h : Nat}
    (hlen : img.length = w * h) (hem : em.length = w * h) :
    ∃ out, computeEnergyMap img em w h = some out ∧
      FilledTo (energyFlat img w h) (w * h) (h * w) out := by
  unfold computeEnergyMap
  have := forUp_inv (fun y em => forUp (energyCell img w h y) w 0 em)
    (fun y v => FilledTo (energyFlat img w h) (w * h) (y * w) v) h 0 em
    ⟨hem, by intro i hi; simp at hi⟩
    (by
      intro y v _ hy hv
      have hy : y < h := by omega
      have := forUp_inv (energyCell img w h y)
        (fun x v => FilledTo (energyFlat img w h) (w * h) (y * w + x) v) w 0 v
        (by simpa using hv)
        (by
          intro x v' _ hx hv'
          have hx : x < w := by omega
          have hb : y * w + x < w * h := flat_lt hx hy
          refine ⟨_, energyCell_eq v' hlen hx hy (by rw [hv'.1]; exact hb), ?_⟩
          have := hv'.write hb
          simpa [energyFlat, flat_div y hx, flat_mod y hx, Nat.add_assoc] using this)
      obtain ⟨s', h1, h2⟩ := this
      refine ⟨s', h1, ?_⟩
      have e : (y + 1) * w = y * w + (0 + w) := by ring
      show FilledTo (energyFlat img w h) (w * h) ((y + 1) * w) s'
      rw [e]; exact h2)
  simpa using this

/-! ## The cumulative energy map -/

theorem minIf_true {cum : List Int} {i : Nat} {c : Int} (m : Int) (h : cum[i]? = some c) :
    minIf true cum i m = some (min m c) := by
  simp [minIf, readAt, h]

theorem cumCell_eq {energyMap cum : List Int} {w h x y : Nat}
    (hlen : energyMap.length = w * h) (hx : x < w) (hy : y + 1 < h)
    (hc : FilledTo (cumFlat energyMap w) (w * h) ((y + 1) * w + x) cum) :
    cumCell energyMap w (y + 1) x cum =
      some (cum.set ((y + 1) * w + x) (cumFlat energyMap w ((y + 1) * w + x))) := by
  have hyw : (y + 1) * w = y * w + w := by ring
  have r0 : cum[y * w + x]? = some (cumAtInt energyMap w y x) := by
    have := hc.2 (y * w + x) (by omega)
    simpa [cumFlat, flat_div y hx, flat_mod y hx] using this
  have e1 : minIf (decide (x > 0)) cum (y * w + (x - 1)) (cumAtInt energyMap w y x) =
      some (if x > 0 then min (cumAtInt energyMap w y x) (cumAtInt energyMap w y (x - 1))
        else cumAtInt energyMap w y x) := by
    by_cases c : x > 0
    · have hx' : x - 1 < w := by omega
      have := hc.2 (y * w + (x - 1)) (by omega)
      simp only [cumFlat, flat_div y hx', flat_mod y hx'] at this
      simp [c, minIf_true _ this]
    · simp [c, minIf]
  have e2 : ∀ m, minIf (decide (x < w - 1)) cum (y * w + (x + 1)) m =
      some (if x < w - 1 then min m (cumAtInt energyMap w y (x + 1)) else m) := by
    intro m
    by_cases c : x < w - 1
    · have hx' : x + 1 < w := by omega
      have := hc.2 (y * w + (x + 1)) (by omega)
      simp only [cumFlat, flat_div y hx', flat_mod y hx'] at this
      simp [c, minIf_true _ this]
    · simp [c, minIf]
  have hb : (y + 1) * w + x < w * h := flat_lt hx hy
  have re : readAt energyMap ((y + 1) * w + x) = some (energyMap.getD ((y + 1) * w + x) 0) :=
    readAt_of_lt (by rw [hlen]; exact hb)
  unfold cumCell
  simp only [Nat.add_sub_cancel, readAt_of_getElem? r0, Option.some_bind, Option.bind_eq_bind,
    e1, e2, re, writeAt_of_lt _ (show (y + 1) * w + x < cum.length by rw [hc.1]; exact hb)]
  simp [cumFlat, flat_div (y + 1) hx, flat_mod (y + 1) hx, cumAtInt]

theorem copyCell_eq {energyMap cum : List Int} {w h x : Nat}
    (hlen : energyMap.length = w * h) (hx : x < w) (hh : 1 ≤ h)
    (hc : FilledTo (cumFlat energyMap w) (w * h) x cum) :
    copyCell energyMap x cum = some (cum.set x (cumFlat energyMap w x)) := by
  have hb : x < w * h := by
    have := flat_lt hx (show 0 < h by omega)
    simpa using this
  unfold copyCell
  rw [readAt_of_lt (by rw [hlen]; exact hb)]
  simp only [Option.some_bind, Option.bind_eq_bind,
    writeAt_of_lt _ (show x < cum.length by rw [hc.1]; exact hb)]
  simp [cumFlat, Nat.div_eq_of_lt hx, Nat.mod_eq_of_lt hx, cumAtInt]

theorem cumulativeEnergy_filled {energyMap : List Int} {w h : Nat}
    (hlen : energyMap.length = w * h) (hh : 1 ≤ h) :
    ∃ cum, cumulativeEnergy energyMap w h = some cum ∧
      FilledTo (cumFlat energyMap w) (w * h) (h * w) cum := by
  unfold cumulativeEnergy
  obtain ⟨c1, hc1, hf1⟩ := forUp_inv (copyCell energyMap)
    (fun x v => FilledTo (cumFlat energyMap w) (w * h) x v) w 0 (List.replicate (w * h) 0)
    ⟨by simp, by intro i hi; simp at hi⟩
    (by
      intro x v _ hx hv
      have hx : x < w := by omega
      have hb : x < w * h := by
        have := flat_lt hx (show 0 < h by omega)
        simpa using this
      exact ⟨_, copyCell_eq hlen hx hh hv, hv.write hb⟩)
  obtain ⟨c2, hc2, hf2⟩ := forUp_inv (fun y c => forUp (cumCell energyMap w y) w 0 c)
    (fun y v => FilledTo (cumFlat energyMap w) (w * h) (y * w) v) (h - 1) 1 c1
    (by simpa using hf1)
    (by
      intro y v hy1 hy hv
      obtain ⟨y, rfl⟩ : ∃ k, y = k + 1 := ⟨y - 1, by omega⟩
      have hy : y + 1 < h := by omega
      obtain ⟨s', h1, h2⟩ := forUp_inv (cumCell energyMap w (y + 1))
        (fun x v => FilledTo (cumFlat energyMap w) (w * h) ((y + 1) * w + x) v) w 0 v
        (by simpa using hv)
        (by
          intro x v' _ hx hv'
          have hx : x < w := by omega
          exact ⟨_, cumCell_eq hlen hx hy hv', hv'.write (flat_lt hx hy)⟩)
      refine ⟨s', h1, ?_⟩
      have e : (y + 1 + 1) * w = (y + 1) * w + (0 + w) := by ring
      show FilledTo (cumFlat energyMap w) (w * h) ((y + 1 + 1) * w) s'
      rw [e]; exact h2)
  refine ⟨c2, by simp [hc1, hc2], ?_⟩
  have : 1 + (h - 1) = h := by omega
  rw [this] at hf2
  exact hf2

/-- Every cell of the computed cumulative map holds `cumAtInt`. -/
theorem cumulativeEnergy_cell {energyMap : List Int} {w h : Nat}
    (hlen : energyMap.length = w * h) (hh : 1 ≤ h) :
    ∃ cum, cumulativeEnergy energyMap w h = some cum ∧ cum.length = w * h ∧
      ∀ x y, x < w → y < h → cell cum w x y = cumAtInt energyMap w y x := by
  obtain ⟨cum, hc, hf⟩ := cumulativeEnergy_filled hlen hh
  refine ⟨cum, hc, hf.1, ?_⟩
  intro x y hx hy
  have := hf.2 (y * w + x) (by have := flat_lt hx hy; rw [Nat.mul_comm h w]; exact this)
  simp only [cumFlat, flat_div y hx, flat_mod y hx] at this
  exact getD_of_getElem? this

/-! ## The dynamic program computes minimal path sums -/

theorem cumAt_succ_le (energyMap : List Int) {w : Nat} (y : Nat) {x x' : Nat}
    (hx' : x' < w) (h1 : x' ≤ x + 1) (h2 : x ≤ x' + 1) :
    cumAt energyMap w (y + 1) x ≤
      cell energyMap w x (y + 1) + cumAt energyMap w y x' := by
  simp only [cumAt, cell]
  have hcases : x' = x ∨ (0 < x ∧ x' = x - 1) ∨ (x < w - 1 ∧ x' = x + 1) := by omega
  rcases hcases with rfl | ⟨hp, rfl⟩ | ⟨hp, rfl⟩
  · split_ifs <;> simp
  · have : x > 0 := hp
    split_ifs <;> simp
  · simp [hp]

theorem cumAt_succ_attained (energyMap : List Int) {w : Nat} (y x : Nat) (hx : x < w) :
    ∃ x', x' < w ∧ x' ≤ x + 1 ∧ x ≤ x' + 1 ∧
      cumAt energyMap w (y + 1) x =
        cell energyMap w x (y + 1) + cumAt energyMap w y x' := by
  simp only [cumAt, cell]
  by_cases c1 : x > 0 <;> by_cases c2 : x < w - 1
  · simp only [c1, c2, if_true]
    rcases min_choice (min (cumAt energyMap w y x) (cumAt energyMap w y (x - 1)))
      (cumAt energyMap w y (x + 1)) with e | e
    · rcases min_choice (cumAt energyMap w y x) (cumAt energyMap w y (x - 1)) with e' | e'
      · exact ⟨x, hx, by omega, by omega, by rw [e, e']⟩
      · exact ⟨x - 1, by omega, by omega, by omega, by rw [e, e']⟩
    · exact ⟨x + 1, by omega, by omega, by omega, by rw [e]⟩
  · simp only [c1, c2, if_true, if_false]
    rcases min_choice (cumAt energyMap w y x) (cumAt energyMap w y (x - 1)) with e' | e'
    · exact ⟨x, hx, by omega, by omega, by rw [e']⟩
    · exact ⟨x - 1, by omega, by omega, by omega, by rw [e']⟩
  · simp only [c1, c2, if_true, if_false]
    rcases min_choice (cumAt energyMap w y x) (cumAt energyMap w y (x + 1)) with e | e
    · exact ⟨x, hx, by omega, by omega, by rw [e]⟩
    · exact ⟨x + 1, by omega, by omega, by omega, by rw [e]⟩
  · simp only [c1, c2, if_false]
    exact ⟨x, hx, by omega, by omega, rfl⟩

theorem cumAt_le_pathEnergy (energyMap : List Int) (w : Nat) :
    ∀ (y x : Nat) (p : Nat → Nat), ConnectedPath w y x p →
      cumAt energyMap w y x ≤ pathEnergy energyMap w y p := by
  intro y
  induction y with
  | zero =>
    intro x p hp
    obtain ⟨_, _, hlast⟩ := hp
    simp [pathEnergy, cumAt, cell, hlast]
  | succ y ih =>
    intro x p hp
    obtain ⟨hrange, hadj, hlast⟩ := hp
    have hq : ConnectedPath w y (p y) p :=
      ⟨fun k hk => hrange k (by omega), fun k hk => hadj k (by omega), rfl⟩
    have h1 := ih (p y) p hq
    have h2 := hadj y (by omega)
    rw [hlast] at h2
    have h3 := cumAt_succ_le energyMap y (hrange y (by omega)) h2.1 h2.2
    have h4 : pathEnergy energyMap w (y + 1) p =
        pathEnergy energyMap w y p + cell energyMap w x (y + 1) := by
      unfold pathEnergy
      rw [Finset.sum_range_succ, hlast]
    rw [h4]
    linarith

theorem cumAt_pathEnergy_attained (energyMap : List Int) (w : Nat) :
    ∀ (y x : Nat), x < w →
      ∃ p, ConnectedPath w y x p ∧ pathEnergy energyMap w y p = cumAt energyMap w y x := by
  intro y
  induction y with
  | zero =>
    intro x hx
    refine ⟨fun _ => x, ⟨fun _ _ => hx, fun k hk => by omega, rfl⟩, ?_⟩
    simp [pathEnergy, cumAt, cell]
  | succ y ih =>
    intro x hx
    obtain ⟨x', hx', a1, a2, hrec⟩ := cumAt_succ_attained energyMap y x hx
    obtain ⟨q, ⟨qrange, qadj, qlast⟩, qsum⟩ := ih x' hx'
    refine ⟨fun k => if k ≤ y then q k else x, ⟨?_, ?_, ?_⟩, ?_⟩
    · intro k hk
      by_cases c : k ≤ y
      · simp only [c, if_true]; exact qrange k c
      · simp only [c, if_false]; exact hx
    · intro k hk
      by_cases c : k < y
      · have c1 : k ≤ y := by omega
        have c2 : k + 1 ≤ y := by omega
        simp only [c1, c2, if_true]
        exact qadj k c
      · have c0 : k = y := by omega
        subst c0
        have c2 : ¬ (k + 1 ≤ k) := by omega
        simp only [Nat.le_refl, c2, if_true, if_false, qlast]
        omega
    · have c2 : ¬ (y + 1 ≤ y) := by omega
      simp only [c2, if_false]
    · unfold pathEnergy
      rw [Finset.sum_range_succ]
      have c2 : ¬ (y + 1 ≤ y) := by omega
      simp only [c2, if_false]
      have hs : ∑ k in Finset.range (y + 1), cell energyMap w (if k ≤ y then q k else x) k =
          ∑ k in Finset.range (y + 1), cell energyMap w (q k) k := by
        apply Finset.sum_congr rfl
        intro k hk
        have : k ≤ y := by
          have := Finset.mem_range.mp hk
          omega
        simp only [this, if_true]
      rw [hs, hrec]
      unfold pathEnergy at qsum
      rw [qsum]
      ring

/-- One row of the dynamic program as it is stored: the cell is the `int` sum of its
energy and a value `m` that is attained by an in-range neighbour of the row above
and is below all of them. -/
theorem cumAtInt_succ (energyMap : List Int) {w : Nat} (y x : Nat) (hx : x < w) :
    ∃ m, cumAtInt energyMap w (y + 1) x = wrapInt (cell energyMap w x (y + 1) + m) ∧
      (∃ x', x' < w ∧ x' ≤ x + 1 ∧ x ≤ x' + 1 ∧ m = cumAtInt energyMap w y x') ∧
      ∀ x', x' < w → x' ≤ x + 1 → x ≤ x' + 1 → m ≤ cumAtInt energyMap w y x' := by
  by_cases c1 : x > 0 <;> by_cases c2 : x < w - 1
  · refine ⟨min (min (cumAtInt energyMap w y x) (cumAtInt energyMap w y (x - 1)))
      (cumAtInt energyMap w y (x + 1)), by simp [cumAtInt, cell, c1, c2], ?_, ?_⟩
    · rcases min_choice (min (cumAtInt energyMap w y x) (cumAtInt energyMap w y (x - 1)))
        (cumAtInt energyMap w y (x + 1)) with e | e
      · rcases min_choice (cumAtInt energyMap w y x) (cumAtInt energyMap w y (x - 1))
          with e' | e'
        · exact ⟨x, hx, by omega, by omega, by rw [e, e']⟩
        · exact ⟨x - 1, by omega, by omega, by omega, by rw [e, e']⟩
      · exact ⟨x + 1, by omega, by omega, by omega, by rw [e]⟩
    · intro x' hx' h1 h2
      have hcases : x' = x ∨ x' = x - 1 ∨ x' = x + 1 := by omega
      rcases hcases with rfl | rfl | rfl
      · exact le_trans (min_le_left _ _) (min_le_left _ _)
      · exact le_trans (min_le_left _ _) (min_le_right _ _)
      · exact min_le_right _ _
  · refine ⟨min (cumAtInt energyMap w y x) (cumAtInt energyMap w y (x - 1)),
      by simp [cumAtInt, cell, c1, c2], ?_, ?_⟩
    · rcases min_choice (cumAtInt energyMap w y x) (cumAtInt energyMap w y (x - 1))
        with e' | e'
      · exact ⟨x, hx, by omega, by omega, by rw [e']⟩
      · exact ⟨x - 1, by omega, by omega, by omega, by rw [e']⟩
    · intro x' hx' h1 h2
      have hcases : x' = x ∨ x' = x - 1 := by omega
      rcases hcases with rfl | rfl
      · exact min_le_left _ _
      · exact min_le_right _ _
  · refine ⟨min (cumAtInt energyMap w y x) (cumAtInt energyMap w y (x + 1)),
      by simp [cumAtInt, cell, c1, c2], ?_, ?_⟩
    · rcases min_choice (cumAtInt energyMap w y x) (cumAtInt energyMap w y (x + 1))
        with e | e
      · exact ⟨x, hx, by omega, by omega, by rw [e]⟩
      · exact ⟨x + 1, by omega, by omega, by omega, by rw [e]⟩
    · intro x' hx' h1 h2
      have hcases : x' = x ∨ x' = x + 1 := by omega
      rcases hcases with rfl | rfl
      · exact min_le_left _ _
      · exact min_le_right _ _
  · refine ⟨cumAtInt energyMap w y x, by simp [cumAtInt, cell, c1, c2], ?_, ?_⟩
    · exact ⟨x, hx, by omega, by omega, rfl⟩
    · intro x' hx' h1 h2
      have hcases : x' = x := by omega
      rw [hcases]

/-- While the exact values of the rows up to `y` fit in an `int`, the stored values
are the exact ones. -/
theorem cumAtInt_eq_cumAt (energyMap : List Int) (w : Nat) :
    ∀ (y : Nat),
      (∀ y', y' ≤ y → ∀ x', x' < w →
        -2147483648 ≤ cumAt energyMap w y' x' ∧ cumAt energyMap w y' x' ≤ 2147483647) →
      ∀ x, x < w → cumAtInt energyMap w y x = cumAt energyMap w y x := by
  intro y
  induction y with
  | zero => intro _ x _; rfl
  | succ y ih =>
    intro hfit x hx
    have ih' := ih (fun y' hy' x' hx' => hfit y' (by omega) x' hx')
    have hr := hfit (y + 1) (le_refl _) x hx
    have e0 := ih' x hx
    by_cases c1 : x > 0 <;> by_cases c2 : x < w - 1
    · have e1 := ih' (x - 1) (by omega)
      have e2 := ih' (x + 1) (by omega)
      simp only [cumAt, c1, c2, if_true] at hr
      simp only [cumAtInt, cumAt, c1, c2, if_true, e0, e1, e2]
      exact wrapInt_of_fits hr.1 hr.2
    · have e1 := ih' (x - 1) (by omega)
      simp only [cumAt, c1, c2, if_true, if_false] at hr
      simp only [cumAtInt, cumAt, c1, c2, if_true, if_false, e0, e1]
      exact wrapInt_of_fits hr.1 hr.2
    · have e2 := ih' (x + 1) (by omega)
      simp only [cumAt, c1, c2, if_true, if_false] at hr
      simp only [cumAtInt, cumAt, c1, c2, if_true, if_false, e0, e2]
      exact wrapInt_of_fits hr.1 hr.2
    · simp only [cumAt, c1, c2, if_false] at hr
      simp only [cumAtInt, cumAt, c1, c2, if_false, e0]
      exact wrapInt_of_fits hr.1 hr.2

/-! ## Seed selection -/

theorem seedIndex_spec {cum : List Int} {w h : Nat}
    (hlen : cum.length = w * h) (hw : 1 ≤ w) (hh : 1 ≤ h) :
    ∃ s, seedIndex cum w h = some s ∧ s < w ∧
      (∀ x, x < w → cell cum w s (h - 1) ≤ cell cum w x (h - 1)) ∧
      (∀ x, x < s → cell cum w s (h - 1) < cell cum w x (h - 1)) := by
  unfold seedIndex
  obtain ⟨s, hs, hP⟩ := forUp_inv (seedStep cum w h)
    (fun x idx => idx < x ∧
      (∀ j, j < x → cell cum w idx (h - 1) ≤ cell cum w j (h - 1)) ∧
      (∀ j, j < idx → cell cum w idx (h - 1) < cell cum w j (h - 1)))
    (w - 1) 1 0
    ⟨by omega, by intro j hj; have : j = 0 := by omega
                  subst this; exact le_refl _, by intro j hj; omega⟩
    (by
      intro x idx hx1 hx ⟨hidx, hmin, hleft⟩
      have hxw : x < w := by omega
      have b1 : (h - 1) * w + x < cum.length := by
        rw [hlen]; exact flat_lt hxw (by omega)
      have b2 : (h - 1) * w + idx < cum.length := by
        rw [hlen]; exact flat_lt (by omega) (by omega)
      unfold seedStep
      rw [readAt_of_lt b1, readAt_of_lt b2]
      simp only [Option.some_bind, Option.bind_eq_bind, Option.map_some']
      refine ⟨_, rfl, ?_⟩
      by_cases c : cum.getD ((h - 1) * w + x) 0 < cum.getD ((h - 1) * w + idx) 0
      · simp only [c, if_true]
        refine ⟨by omega, ?_, ?_⟩
        · intro j hj
          by_cases cj : j = x
          · subst cj; exact le_refl _
          · have := hmin j (by omega)
            simp only [cell] at this ⊢
            linarith
        · intro j hj
          have := hmin j hj
          simp only [cell] at this ⊢
          linarith
      · simp only [c, if_false]
        refine ⟨by omega, ?_, hleft⟩
        intro j hj
        by_cases cj : j = x
        · subst cj
          simp only [cell]
          linarith
        · exact hmin j (by omega))
  have e : 1 + (w - 1) = w := by omega
  rw [e] at hP
  exact ⟨s, hs, hP⟩

/-! ## The traced seam -/

theorem two_le_mul {w k : Nat} (hw : 1 ≤ w) (hk : 1 ≤ k) : w + k ≤ w * k + 1 := by
  obtain ⟨a, rfl⟩ : ∃ a, w = a + 1 := ⟨w - 1, by omega⟩
  obtain ⟨b, rfl⟩ : ∃ b, k = b + 1 := ⟨k - 1, by omega⟩
  have : (a + 1) * (b + 1) = a * b + a + b + 1 := by ring
  omega

theorem trace_read_lt {w h y idx : Nat} (hw : 1 ≤ w) (hy : y + 1 < h)
    (hidx : idx + (y + 1) + 2 ≤ w + h) : y * w + idx + 1 < w * h := by
  obtain ⟨k, rfl⟩ : ∃ k, h = y + k := ⟨h - y, by omega⟩
  have e : w * (y + k) = y * w + w * k := by ring
  have := two_le_mul hw (show 1 ≤ k by omega)
  omega

theorem nextIndex_eq {cum : List Int} {w h y idx : Nat}
    (hlen : cum.length = w * h) (hw : 1 ≤ w) (hy : y + 1 < h)
    (hidx : idx + (y + 1) + 2 ≤ w + h) :
    nextIndex cum w (y + 1) idx =
      some (idx + if cum.getD (y * w + idx) 0 < cum.getD (y * w + idx + 1) 0 then 0 else 1) := by
  have b := trace_read_lt hw hy hidx
  unfold nextIndex
  simp only [Nat.add_sub_cancel]
  rw [readAt_of_lt (show y * w + idx < cum.length by omega),
    readAt_of_lt (show y * w + idx + 1 < cum.length by omega)]
  rfl

theorem seamTrace_spec {cum : List Int} {w h : Nat}
    (hlen : cum.length = w * h) (hw : 1 ≤ w) :
    ∀ (y idx : Nat), y < h → idx + y + 2 ≤ w + h →
      ∃ t, seamTrace cum w y idx = some t ∧ t.length = y + 1 ∧ t.head? = some idx ∧
        List.Chain' Adjacent t := by
  intro y
  induction y with
  | zero =>
    intro idx _ _
    exact ⟨[idx], rfl, rfl, rfl, List.chain'_singleton _⟩
  | succ y ih =>
    intro idx hy hidx
    have hn := nextIndex_eq hlen hw hy hidx
    obtain ⟨t, ht, hl, hhd, hch⟩ := ih
      (idx + if cum.getD (y * w + idx) 0 < cum.getD (y * w + idx + 1) 0 then 0 else 1)
      (by omega) (by split_ifs <;> omega)
    refine ⟨idx :: t, ?_, by simp [hl], rfl, ?_⟩
    · simp only [seamTrace, hn, ht, Option.some_bind, Option.map_some']
    · cases t with
      | nil => simp at hl
      | cons c rest =>
        simp only [List.head?_cons, Option.some.injEq] at hhd
        rw [List.chain'_cons]
        refine ⟨?_, hch⟩
        rw [hhd]
        unfold Adjacent
        split_ifs <;> omega

/-- The removal loop walks through exactly the columns listed by `seamTrace`. -/
theorem removeLoop_seam (cum : List Int) (w : Nat) :
    ∀ (n : Nat) (img : List Int) (idx : Nat) (s : List Int × Nat),
      forDown (removeBody cum w) n (img, idx) = some s →
      ∃ t, seamTrace cum w n idx = some t ∧ t.getLast? = some s.2 := by
  intro n
  induction n with
  | zero =>
    intro img idx s hs
    simp only [forDown, Option.some.injEq] at hs
    subst hs
    exact ⟨[idx], rfl, rfl⟩
  | succ n ih =>
    intro img idx s hs
    simp only [forDown, removeBody] at hs
    cases h1 : shiftRow w (n + 1) idx img with
    | none => simp [h1] at hs
    | some img1 =>
      cases h2 : nextIndex cum w (n + 1) idx with
      | none => simp [h1, h2] at hs
      | some idx1 =>
        simp only [h1, h2, Option.some_bind, Option.map_some'] at hs
        obtain ⟨t, ht, hlast⟩ := ih img1 idx1 s hs
        refine ⟨idx :: t, by simp [seamTrace, h2, ht], ?_⟩
        cases t with
        | nil => simp at hlast
        | cons c rest => simpa [List.getLast?_cons_cons] using hlast

/-! ## Settled claims -/

/-- C1 (evaluation at a failing input): for the 3-wide, 2-high grid with rows
`[10,10,10]` and `[10,50,10]`, `computeEnergyMap` followed by `removeMinEnergyPath`
leaves `[10,10,10]`: 3 pixels, which is `width * (height - 1)`, not the
`(width - 1) * height = 4` pixels of a grid one column narrower. -/
theorem removeMinEnergyPath_size_divergence :
    ((computeEnergyMap [10, 10, 10, 10, 50, 10] (List.replicate (3 * 2) 0) 3 2).bind
        fun e => removeMinEnergyPath [10, 10, 10, 10, 50, 10] e 3 2) = some [10, 10, 10]
      ∧ [(10 : Int), 10, 10].length = 3 * (2 - 1)
      ∧ [(10 : Int), 10, 10].length ≠ (3 - 1) * 2 := by
  decide

/-- C2 (evaluation at a failing input): for the 3-wide, 2-high grid with rows
`[1,2,3]` and `[4,5,6]` the seam is column 0 in both rows, so the rows with only the
seam pixel deleted are `[2,3]` and `[5,6]`; `removeMinEnergyPath` leaves `[6,6,6]`
instead: row 0 is erased, and in row 1 the pixel 5 right of the seam is lost while
the pixel 6 appears three times. -/
theorem removeMinEnergyPath_row_divergence :
    ((computeEnergyMap [1, 2, 3, 4, 5, 6] (List.replicate (3 * 2) 0) 3 2).bind
        fun e => removeMinEnergyPath [1, 2, 3, 4, 5, 6] e 3 2) = some [6, 6, 6]
      ∧ ((computeEnergyMap [1, 2, 3, 4, 5, 6] (List.replicate (3 * 2) 0) 3 2).bind
        fun e => tracedSeam e 3 2) = some [0, 0]
      ∧ (gridRow [1, 2, 3, 4, 5, 6] 3 0).eraseIdx 0 = [2, 3]
      ∧ (gridRow [1, 2, 3, 4, 5, 6] 3 1).eraseIdx 0 = [5, 6]
      ∧ (5 : Int) ∉ [(6 : Int), 6, 6] := by
  decide

/-- C3 (evaluation at a failing input): for the 3-wide, 2-high energy grid with rows
`[2,3,4]` and `[1,0,2]` (the energy map of the image with rows `[1,0,2]`, `[0,0,0]`)
the cumulative map is `[2,3,4]`, `[3,2,5]` with bottom-row minimum 2, but the traced
seam is column 1 in both rows, whose energies sum to 3. -/
theorem tracedSeam_energy_divergence :
    computeEnergyMap [1, 0, 2, 0, 0, 0] (List.replicate (3 * 2) 0) 3 2
        = some [2, 3, 4, 1, 0, 2]
      ∧ cumulativeEnergy [2, 3, 4, 1, 0, 2] 3 2 = some [2, 3, 4, 3, 2, 5]
      ∧ (gridRow [2, 3, 4, 3, 2, 5] 3 (2 - 1)).min? = some 2
      ∧ tracedSeam [2, 3, 4, 1, 0, 2] 3 2 = some [1, 1]
      ∧ seamEnergy [2, 3, 4, 1, 0, 2] 3 [1, 1] = 3 := by
  decide

/-- C4 (the claim fails): for the 2-wide, 1-high grid `[2147483647, -1]` the sum of the
absolute differences between pixel `(0, 0)` and its only neighbour is 2147483648,
which no `int` holds; `computeEnergyMap` stores -2147483648 in that cell. -/
theorem computeEnergyMap_cell_counterexample :
    ¬ ∃ out, computeEnergyMap [2147483647, -1] [0, 0] 2 1 = some out ∧
      out[0 * 2 + 0]? = some (neighbourDiffSum [2147483647, -1] 2 1 0 0) := by
  have e : computeEnergyMap [2147483647, -1] [0, 0] 2 1
      = some [-2147483648, -2147483648] := by decide
  rintro ⟨out, ho, hcell⟩
  rw [e] at ho
  cases ho
  revert hcell
  decide

/-- C4 (amended): for a `w × h` grid and every pixel `(x, y)` of it, `computeEnergyMap`
returns an energy map of `w * h` cells whose cell `y * w + x` is the sum of the
absolute differences between the pixel and those of its four neighbours that lie
inside the grid, whenever that sum is at most 2147483647 (it fits in an `int`). -/
theorem computeEnergyMap_cell (inputImage energyMap : List Int) (w h x y : Nat)
    (himg : inputImage.length = w * h) (hem : energyMap.length = w * h)
    (hx : x < w) (hy : y < h)
    (hfit : neighbourDiffSum inputImage w h x y ≤ 2147483647) :
    ∃ out, computeEnergyMap inputImage energyMap w h = some out ∧ out.length = w * h ∧
      out[y * w + x]? = some (neighbourDiffSum inputImage w h x y) := by
  obtain ⟨out, ho, hf⟩ := computeEnergyMap_filled himg hem
  refine ⟨out, ho, hf.1, ?_⟩
  have := hf.2 (y * w + x) (by have := flat_lt hx hy; rw [Nat.mul_comm h w]; exact this)
  simp only [energyFlat, flat_div y hx, flat_mod y hx] at this
  rw [this, neighbourDiffSum_eq]
  rw [neighbourDiffSum_eq] at hfit
  rw [calculateEnergy_exact hfit]

theorem computeEnergyMap_cell_witness :
    [(10 : Int), 10, 10, 10, 50, 10].length = 3 * 2 ∧ (List.replicate 6 (0 : Int)).length = 3 * 2 ∧
      1 < 3 ∧ 1 < 2 ∧ neighbourDiffSum [10, 10, 10, 10, 50, 10] 3 2 1 1 ≤ 2147483647 ∧
      ∃ out, computeEnergyMap [10, 10, 10, 10, 50, 10] (List.replicate 6 0) 3 2 = some out ∧
        out.length = 3 * 2 ∧
        out[1 * 3 + 1]? = some (neighbourDiffSum [10, 10, 10, 10, 50, 10] 3 2 1 1) :=
  ⟨by decide, by decide, by decide, by decide, by decide,
    computeEnergyMap_cell [10, 10, 10, 10, 50, 10] (List.replicate 6 0) 3 2 1 1
      (by decide) (by decide) (by decide) (by decide) (by decide)⟩

/-- C5 (the claim fails): for the 1-wide, 2-high energy grid `[2147483647, 1]` the only
connected path to cell `(0, 1)` has energy 2147483648, which no `int` holds; the
cumulative value stored for the cell is -2147483648, the sum of no path. -/
theorem cumulativeEnergy_min_path_counterexample :
    ¬ ∃ cum, cumulativeEnergy [2147483647, 1] 1 2 = some cum ∧
      (∀ p, ConnectedPath 1 1 0 p → cell cum 1 0 1 ≤ pathEnergy [2147483647, 1] 1 1 p) ∧
      (∃ p, ConnectedPath 1 1 0 p ∧ pathEnergy [2147483647, 1] 1 1 p = cell cum 1 0 1) := by
  have e : cumulativeEnergy [2147483647, 1] 1 2 = some [2147483647, -2147483648] := by
    decide
  rintro ⟨cum, hc, _, p, ⟨hr, _, hl⟩, hsum⟩
  rw [e] at hc
  cases hc
  have h0 : p 0 = 0 := by
    have := hr 0 (by omega)
    omega
  simp [pathEnergy, Finset.sum_range_succ, h0, hl, cell] at hsum

/-- C5 (amended): for a `w × h` energy grid and every cell `(x, y)` such that the exact
cumulative sums of all cells of the rows 0 to `y` lie in the `int` range
`[-2147483648, 2147483647]` (no addition of line 65 overflows up to row `y`), the
cumulative value computed for `(x, y)` is the minimum, over all connected paths from
row 0 to row `y` that end at column `x`, of the sum of the energies along the path:
it is a lower bound of every such path sum and it is the sum of one such path. -/
theorem cumulativeEnergy_min_path (energyMap : List Int) (w h x y : Nat)
    (hlen : energyMap.length = w * h) (hx : x < w) (hy : y < h)
    (hfit : ∀ y', y' ≤ y → ∀ x', x' < w →
      -2147483648 ≤ cumAt energyMap w y' x' ∧ cumAt energyMap w y' x' ≤ 2147483647) :
    ∃ cum, cumulativeEnergy energyMap w h = some cum ∧
      (∀ p, ConnectedPath w y x p → cell cum w x y ≤ pathEnergy energyMap w y p) ∧
      (∃ p, ConnectedPath w y x p ∧ pathEnergy energyMap w y p = cell cum w x y) := by
  obtain ⟨cum, hc, _, hcell⟩ := cumulativeEnergy_cell hlen (show 1 ≤ h by omega)
  have hval : cell cum w x y = cumAt energyMap w y x := by
    rw [hcell x y hx hy]
    exact cumAtInt_eq_cumAt energyMap w y hfit x hx
  refine ⟨cum, hc, ?_, ?_⟩
  · intro p hp
    rw [hval]
    exact cumAt_le_pathEnergy energyMap w y x p hp
  · rw [hval]
    exact cumAt_pathEnergy_attained energyMap w y x hx

theorem cumulativeEnergy_min_path_witness :
    [(2 : Int), 3, 4, 1, 0, 2].length = 3 * 2 ∧ 1 < 3 ∧ 1 < 2 ∧
      (∀ y', y' ≤ 1 → ∀ x', x' < 3 →
        -2147483648 ≤ cumAt [2, 3, 4, 1, 0, 2] 3 y' x' ∧
          cumAt [2, 3, 4, 1, 0, 2] 3 y' x' ≤ 2147483647) ∧
      ∃ cum, cumulativeEnergy [2, 3, 4, 1, 0, 2] 3 2 = some cum ∧
        (∀ p, ConnectedPath 3 1 1 p →
          cell cum 3 1 1 ≤ pathEnergy [2, 3, 4, 1, 0, 2] 3 1 p) ∧
        (∃ p, ConnectedPath 3 1 1 p ∧ pathEnergy [2, 3, 4, 1, 0, 2] 3 1 p = cell cum 3 1 1) :=
  ⟨by decide, by decide, by decide, by decide,
    cumulativeEnergy_min_path [2, 3, 4, 1, 0, 2] 3 2 1 1 (by decide) (by decide) (by decide)
      (by decide)⟩

/-- C6 (the claim fails): for the 1-wide, 2-high energy grid `[2147483647, 2]` the only
upper neighbour of cell `(0, 1)` holds 2147483647, and the cumulative value stored
for the cell is -2147483647, not `2 + 2147483647`. -/
theorem cumulativeEnergy_recurrence_counterexample :
    ¬ ∃ cum, cumulativeEnergy [2147483647, 2] 1 2 = some cum ∧
      ∃ m, m ∈ upNeighbours cum 1 0 1 ∧ (∀ c ∈ upNeighbours cum 1 0 1, m ≤ c) ∧
        cell cum 1 0 1 = cell [2147483647, 2] 1 0 1 + m := by
  have e : cumulativeEnergy [2147483647, 2] 1 2 = some [2147483647, -2147483647] := by
    decide
  rintro ⟨cum, hc, m, hm, _, heq⟩
  rw [e] at hc
  cases hc
  simp [upNeighbours, cell] at hm
  subst hm
  simp [cell] at heq

/-- C6 (amended): for a `w × h` energy grid and every cell `(x, y)` with `y ≥ 1`, let
`m` be the minimum of the cumulative values of `(x-1, y-1)`, `(x, y-1)`,
`(x+1, y-1)`, a neighbour whose column is outside `[0, w)` being left out.  Whenever
`energy(x, y) + m` lies in the `int` range `[-2147483648, 2147483647]`, the
cumulative value of `(x, y)` is `energy(x, y) + m`. -/
theorem cumulativeEnergy_recurrence (energyMap : List Int) (w h x y : Nat)
    (hlen : energyMap.length = w * h) (hx : x < w) (hy1 : 1 ≤ y) (hy : y < h) :
    ∃ cum, cumulativeEnergy energyMap w h = some cum ∧
      ∃ m, m ∈ upNeighbours cum w x y ∧ (∀ c ∈ upNeighbours cum w x y, m ≤ c) ∧
        (-2147483648 ≤ cell energyMap w x y + m → cell energyMap w x y + m ≤ 2147483647 →
          cell cum w x y = cell energyMap w x y + m) := by
  obtain ⟨cum, hc, _, hcell⟩ := cumulativeEnergy_cell hlen (show 1 ≤ h by omega)
  obtain ⟨y, rfl⟩ : ∃ k, y = k + 1 := ⟨y - 1, by omega⟩
  obtain ⟨m, hrec, ⟨x', hx', a1, a2, hm⟩, hmin⟩ := cumAtInt_succ energyMap y x hx
  refine ⟨cum, hc, m, ?_, ?_, ?_⟩
  · have hcases : x' = x ∨ (0 < x ∧ x' = x - 1) ∨ (x + 1 < w ∧ x' = x + 1) := by omega
    unfold upNeighbours
    simp only [Nat.add_sub_cancel]
    rw [hm]
    rcases hcases with rfl | ⟨hp, rfl⟩ | ⟨hp, rfl⟩
    · simp [hcell x' y hx' (by omega)]
    · simp [hp, hcell (x - 1) y hx' (by omega)]
    · simp [hp, hcell (x + 1) y hx' (by omega)]
  · intro c hcmem
    unfold upNeighbours at hcmem
    simp only [Nat.add_sub_cancel, List.mem_append, List.mem_singleton] at hcmem
    have key : ∀ x'', x'' < w → x'' ≤ x + 1 → x ≤ x'' + 1 → m ≤ cell cum w x'' y := by
      intro x'' h1 h2 h3
      rw [hcell x'' y h1 (by omega)]
      exact hmin x'' h1 h2 h3
    rcases hcmem with (hm' | hm') | hm'
    · by_cases c0 : 0 < x
      · simp only [c0, if_true, List.mem_singleton] at hm'
        rw [hm']; exact key (x - 1) (by omega) (by omega) (by omega)
      · simp [c0] at hm'
    · rw [hm']; exact key x hx (by omega) (by omega)
    · by_cases c0 : x + 1 < w
      · simp only [c0, if_true, List.mem_singleton] at hm'
        rw [hm']; exact key (x + 1) c0 (by omega) (by omega)
      · simp [c0] at hm'
  · intro h1 h2
    rw [hcell x (y + 1) hx hy, hrec]
    exact wrapInt_of_fits h1 h2

theorem cumulativeEnergy_recurrence_witness :
    [(2 : Int), 3, 4, 1, 0, 2].length = 3 * 2 ∧ 1 < 3 ∧ 1 ≤ 1 ∧ 1 < 2 ∧
      ∃ cum, cumulativeEnergy [2, 3, 4, 1, 0, 2] 3 2 = some cum ∧
        ∃ m, m ∈ upNeighbours cum 3 1 1 ∧ (∀ c ∈ upNeighbours cum 3 1 1, m ≤ c) ∧
          cell cum 3 1 1 = cell [2, 3, 4, 1, 0, 2] 3 1 1 + m := by
  have e : cumulativeEnergy [2, 3, 4, 1, 0, 2] 3 2 = some [2, 3, 4, 3, 2, 5] := by decide
  obtain ⟨cum, hc, m, hm, hmin, himp⟩ :=
    cumulativeEnergy_recurrence [2, 3, 4, 1, 0, 2] 3 2 1 1
      (by decide) (by decide) (by decide) (by decide)
  rw [e] at hc
  cases hc
  refine ⟨by decide, by decide, by decide, by decide, _, e, m, hm, hmin, ?_⟩
  have hm2 : m = 2 ∨ m = 3 ∨ m = 4 := by
    simpa [upNeighbours, cell] using hm
  rcases hm2 with rfl | rfl | rfl <;> exact himp (by decide) (by decide)

/-- C7: for a `w × h` energy grid with `h ≥ 1` (and any width, so also `w ≥ 1`), row 0 of the cumulative
energy map computed by `removeMinEnergyPath` is row 0 of the energy grid, cell by
cell. -/
theorem cumulativeEnergy_row_zero (energyMap : List Int) (w h : Nat)
    (hlen : energyMap.length = w * h) (hh : 1 ≤ h) :
    ∃ cum, cumulativeEnergy energyMap w h = some cum ∧
      gridRow cum w 0 = gridRow energyMap w 0 ∧ (gridRow cum w 0).length = w := by
  obtain ⟨cum, hc, hf⟩ := cumulativeEnergy_filled hlen hh
  have hwh : w ≤ w * h := Nat.le_mul_of_pos_right w hh
  refine ⟨cum, hc, ?_, ?_⟩
  · apply List.ext_getElem?
    intro n
    unfold gridRow
    simp only [Nat.zero_mul, List.drop_zero, List.getElem?_take]
    by_cases c : n < w
    · simp only [c, if_true]
      have h1 := hf.2 n (by rw [Nat.mul_comm h w]; omega)
      have h2 := getElem?_of_lt (show n < energyMap.length by omega)
      rw [h1, h2]
      simp [cumFlat, Nat.div_eq_of_lt c, Nat.mod_eq_of_lt c, cumAtInt]
    · simp only [c, if_false]
  · unfold gridRow
    simp only [Nat.zero_mul, List.drop_zero, List.length_take, hf.1]
    omega

theorem cumulativeEnergy_row_zero_witness :
    [(2 : Int), 3, 4, 1, 0, 2].length = 3 * 2 ∧ 1 ≤ 2 ∧
      ∃ cum, cumulativeEnergy [2, 3, 4, 1, 0, 2] 3 2 = some cum ∧
        gridRow cum 3 0 = gridRow [2, 3, 4, 1, 0, 2] 3 0 ∧ (gridRow cum 3 0).length = 3 :=
  ⟨by decide, by decide,
    cumulativeEnergy_row_zero [2, 3, 4, 1, 0, 2] 3 2 (by decide) (by decide)⟩

/-- C8 (evaluation at a failing input): for the 1-wide, 3-high grid with pixels
`[7,7,7]` the energy map is `[0,0,0]` and the column tracked by
`removeMinEnergyPath` is 0 in row 2, 1 in row 1 and 2 in row 0; columns 1 and 2
are outside `[0, 1)`. -/
theorem tracedSeam_range_divergence :
    computeEnergyMap [7, 7, 7] (List.replicate (1 * 3) 0) 1 3 = some [0, 0, 0]
      ∧ tracedSeam [0, 0, 0] 1 3 = some [0, 1, 2]
      ∧ ¬ (∀ c ∈ [0, 1, 2], c < 1) := by
  decide

/-- C9: for a `w × h` grid with `w ≥ 1` and `h ≥ 1`, the trace of the seam of
`removeMinEnergyPath` returns one column per row, and the columns of any two
vertically adjacent rows differ by at most 1. -/
theorem tracedSeam_connected (energyMap : List Int) (w h : Nat)
    (hlen : energyMap.length = w * h) (hw : 1 ≤ w) (hh : 1 ≤ h) :
    ∃ t, tracedSeam energyMap w h = some t ∧ t.length = h ∧ List.Chain' Adjacent t := by
  obtain ⟨cum, hc, hcl, _⟩ := cumulativeEnergy_cell hlen hh
  obtain ⟨s, hs, hsw, _, _⟩ := seedIndex_spec hcl hw hh
  obtain ⟨t, ht, htl, _, hch⟩ := seamTrace_spec hcl hw (h - 1) s (by omega) (by omega)
  refine ⟨t, ?_, by omega, hch⟩
  simp only [tracedSeam, hc, hs, ht, Option.some_bind]

theorem tracedSeam_connected_witness :
    [(0 : Int), 0, 0].length = 1 * 3 ∧ 1 ≤ 1 ∧ 1 ≤ 3 ∧
      ∃ t, tracedSeam [0, 0, 0] 1 3 = some t ∧ t.length = 3 ∧ List.Chain' Adjacent t :=
  ⟨by decide, by decide, by decide,
    tracedSeam_connected [0, 0, 0] 1 3 (by decide) (by decide) (by decide)⟩

/-- C10: for a cumulative grid of width `w ≥ 1` and height `h ≥ 1`, the seed column
chosen by `removeMinEnergyPath` is a column of the bottom row with the smallest
cumulative value, and it is the smallest index among the columns holding that
minimum. -/
theorem seedIndex_leftmost_min (cum : List Int) (w h : Nat)
    (hlen : cum.length = w * h) (hw : 1 ≤ w) (hh : 1 ≤ h) :
    ∃ s, seedIndex cum w h = some s ∧ s < w ∧
      (∀ x, x < w → cell cum w s (h - 1) ≤ cell cum w x (h - 1)) ∧
      (∀ x, x < w → cell cum w x (h - 1) = cell cum w s (h - 1) → s ≤ x) := by
  obtain ⟨s, hs, hsw, hmin, hleft⟩ := seedIndex_spec hlen hw hh
  refine ⟨s, hs, hsw, hmin, ?_⟩
  intro x _ heq
  by_contra hlt
  have := hleft x (by omega)
  omega

theorem seedIndex_leftmost_min_witness :
    [(0 : Int), 0, 0, 40, 80, 40].length = 3 * 2 ∧ 1 ≤ 3 ∧ 1 ≤ 2 ∧
      ∃ s, seedIndex [0, 0, 0, 40, 80, 40] 3 2 = some s ∧ s < 3 ∧
        (∀ x, x < 3 → cell [0, 0, 0, 40, 80, 40] 3 s (2 - 1)
          ≤ cell [0, 0, 0, 40, 80, 40] 3 x (2 - 1)) ∧
        (∀ x, x < 3 → cell [0, 0, 0, 40, 80, 40] 3 x (2 - 1)
          = cell [0, 0, 0, 40, 80, 40] 3 s (2 - 1) → s ≤ x) :=
  ⟨by decide, by decide, by decide,
    seedIndex_leftmost_min [0, 0, 0, 40, 80, 40] 3 2 (by decide) (by decide) (by decide)⟩

/-! ## Sign of the energy -/

theorem cell_uniform {g : List Int} {w h x y : Nat} {c : Int}
    (hlen : g.length = w * h) (hun : ∀ v ∈ g, v = c) (hx : x < w) (hy : y < h) :
    cell g w x y = c := by
  have hb : y * w + x < g.length := by rw [hlen]; exact flat_lt hx hy
  unfold cell
  rw [List.getD_eq_getElem g 0 hb]
  exact hun _ (List.getElem_mem hb)

theorem neighbourDiffSum_uniform {g : List Int} {w h x y : Nat} {c : Int}
    (hlen : g.length = w * h) (hun : ∀ v ∈ g, v = c) (hx : x < w) (hy : y < h) :
    neighbourDiffSum g w h x y = 0 := by
  unfold neighbourDiffSum
  rw [cell_uniform hlen hun hx hy]
  have t1 : (if 0 < x then |c - cell g w (x - 1) y| else 0) = 0 := by
    split_ifs with hc
    · rw [cell_uniform hlen hun (show x - 1 < w by omega) hy]; simp
    · rfl
  have t2 : (if x + 1 < w then |c - cell g w (x + 1) y| else 0) = 0 := by
    split_ifs with hc
    · rw [cell_uniform hlen hun hc hy]; simp
    · rfl
  have t3 : (if 0 < y then |c - cell g w x (y - 1)| else 0) = 0 := by
    split_ifs with hc
    · rw [cell_uniform hlen hun hx (show y - 1 < h by omega)]; simp
    · rfl
  have t4 : (if y + 1 < h then |c - cell g w x (y + 1)| else 0) = 0 := by
    split_ifs with hc
    · rw [cell_uniform hlen hun hx hc]; simp
    · rfl
  rw [t1, t2, t3, t4]; rfl

/-- C12 (the claim fails): `calculateEnergy` returns -2 for the pixel 0 and the
neighbours `[2147483647, 2147483647]`, and for the 3-wide, 1-high grid
`[2147483647, 0, 2147483647]` the energy map returned by `computeEnergyMap` has the
negative cell -2. -/
theorem computeEnergyMap_nonneg_counterexample :
    (¬ ∀ pixel neighbors, 0 ≤ calculateEnergy pixel neighbors) ∧
      ¬ ∃ out, computeEnergyMap [2147483647, 0, 2147483647] [0, 0, 0] 3 1 = some out ∧
        ∀ v ∈ out, 0 ≤ v := by
  have e : computeEnergyMap [2147483647, 0, 2147483647] [0, 0, 0] 3 1
      = some [2147483647, -2, 2147483647] := by decide
  constructor
  · intro hall
    have h2 := hall 0 [2147483647, 2147483647]
    revert h2
    decide
  · rintro ⟨out, ho, hpos⟩
    rw [e] at ho
    cases ho
    revert hpos
    decide

/-- C12 (amended): `calculateEnergy` returns a value `≥ 0` for every pixel and every
neighbour list whose sum of absolute differences is at most 2147483647, and for a
`w × h` grid in which that sum is at most 2147483647 at every pixel,
`computeEnergyMap` returns an energy map of `w * h` cells all of which are `≥ 0`. -/
theorem computeEnergyMap_nonneg (inputImage energyMap : List Int) (w h : Nat)
    (himg : inputImage.length = w * h) (hem : energyMap.length = w * h)
    (hfit : ∀ x, x < w → ∀ y, y < h → neighbourDiffSum inputImage w h x y ≤ 2147483647) :
    (∀ pixel neighbors, absDiffSum pixel neighbors ≤ 2147483647 →
        0 ≤ calculateEnergy pixel neighbors) ∧
      ∃ out, computeEnergyMap inputImage energyMap w h = some out ∧ out.length = w * h ∧
        ∀ v ∈ out, 0 ≤ v := by
  have hcalc : ∀ pixel neighbors, absDiffSum pixel neighbors ≤ 2147483647 →
      0 ≤ calculateEnergy pixel neighbors := by
    intro pixel neighbors hle
    rw [calculateEnergy_exact hle]
    exact absDiffSum_nonneg pixel neighbors
  refine ⟨hcalc, ?_⟩
  obtain ⟨out, ho, hf⟩ := computeEnergyMap_filled himg hem
  refine ⟨out, ho, hf.1, ?_⟩
  intro v hv
  obtain ⟨i, hi, rfl⟩ := List.getElem_of_mem hv
  have hiw : i < w * h := by rw [← hf.1]; exact hi
  have hw : 0 < w := by
    rcases Nat.eq_zero_or_pos w with h0 | h0
    · subst h0; simp at hiw
    · exact h0
  have h1 := hf.2 i (by rw [Nat.mul_comm h w]; exact hiw)
  rw [List.getElem?_eq_getElem hi] at h1
  simp only [Option.some.injEq] at h1
  rw [h1]
  apply hcalc
  rw [← neighbourDiffSum_eq]
  exact hfit (i % w) (Nat.mod_lt i hw) (i / w) (Nat.div_lt_of_lt_mul hiw)

theorem computeEnergyMap_nonneg_witness :
    [(10 : Int), 10, 10, 10, 50, 10].length = 3 * 2 ∧ (List.replicate 6 (0 : Int)).length = 3 * 2 ∧
      (∀ x, x < 3 → ∀ y, y < 2 →
        neighbourDiffSum [10, 10, 10, 10, 50, 10] 3 2 x y ≤ 2147483647) ∧
      ((∀ pixel neighbors, absDiffSum pixel neighbors ≤ 2147483647 →
          0 ≤ calculateEnergy pixel neighbors) ∧
      ∃ out, computeEnergyMap [10, 10, 10, 10, 50, 10] (List.replicate 6 0) 3 2 = some out ∧
        out.length = 3 * 2 ∧ ∀ v ∈ out, 0 ≤ v) :=
  ⟨by decide, by decide, by decide,
    computeEnergyMap_nonneg [10, 10, 10, 10, 50, 10] (List.replicate 6 0) 3 2
      (by decide) (by decide) (by decide)⟩

/-- C13: for a `w × h` grid all of whose pixels have the same value `c`,
`computeEnergyMap` returns the energy map with 0 in every one of its `w * h` cells;
in particular the energy map of every 1 × 1 grid is `[0]`. -/
theorem computeEnergyMap_uniform (inputImage energyMap : List Int) (w h : Nat) (c : Int)
    (himg : inputImage.length = w * h) (hem : energyMap.length = w * h)
    (hun : ∀ v ∈ inputImage, v = c) :
    computeEnergyMap inputImage energyMap w h = some (List.replicate (w * h) 0) ∧
      ∀ p e : Int, computeEnergyMap [p] [e] 1 1 = some [0] := by
  constructor
  · obtain ⟨out, ho, hf⟩ := computeEnergyMap_filled himg hem
    rw [ho]
    congr 1
    apply List.ext_getElem?
    intro n
    rw [List.getElem?_replicate]
    by_cases hn : n < w * h
    · have hw : 0 < w := by
        rcases Nat.eq_zero_or_pos w with h0 | h0
        · subst h0; simp at hn
        · exact h0
      have hx : n % w < w := Nat.mod_lt n hw
      have hy : n / w < h := Nat.div_lt_of_lt_mul hn
      rw [hf.2 n (by rw [Nat.mul_comm h w]; exact hn)]
      simp only [hn, if_true, energyFlat]
      have h0 := neighbourDiffSum_uniform himg hun hx hy
      rw [neighbourDiffSum_eq] at h0
      rw [calculateEnergy_exact (by rw [h0]; decide), h0]
    · simp only [hn, if_false]
      exact List.getElem?_eq_none (by rw [hf.1]; omega)
  · intro p e
    simp [computeEnergyMap, forUp, energyCell, collectNeighbors, pushIf, readAt, writeAt,
      calculateEnergy]

theorem computeEnergyMap_uniform_witness :
    (List.replicate 6 (7 : Int)).length = 3 * 2 ∧ (List.replicate 6 (0 : Int)).length = 3 * 2 ∧
      (∀ v ∈ List.replicate 6 (7 : Int), v = 7) ∧
      (computeEnergyMap (List.replicate 6 7) (List.replicate 6 0) 3 2
          = some (List.replicate (3 * 2) 0) ∧
        ∀ p e : Int, computeEnergyMap [p] [e] 1 1 = some [0]) :=
  ⟨by decide, by decide, by decide,
    computeEnergyMap_uniform (List.replicate 6 7) (List.replicate 6 0) 3 2 7
      (by decide) (by decide) (by decide)⟩

/-! ## Scenarios and degenerate grids -/

theorem forUp_zero_iter {σ : Type} (body : Nat → σ → Option σ) (i : Nat) (s : σ) :
    forUp body 0 i s = some s := rfl

theorem forUp_skip {σ : Type} (body : Nat → σ → Option σ) (hb : ∀ i s, body i s = some s) :
    ∀ (n i : Nat) (s : σ), forUp body n i s = some s := by
  intro n
  induction n with
  | zero => intro i s; rfl
  | succ n ih => intro i s; simp [forUp, hb, ih]

/-- C11 (evaluation at a failing input): for the 3-wide, 2-high energy grid with rows
`[2,3,4]` and `[1,0,2]` the cumulative map is `[2,3,4]`, `[3,2,5]` and the seed is
column 1 of row 1.  Among the columns 0, 1, 2 of row 0 the smallest cumulative value
is the 2 of column 0, but the upward step keeps column 1, whose value is 3. -/
theorem nextIndex_three_way_divergence :
    cumulativeEnergy [2, 3, 4, 1, 0, 2] 3 2 = some [2, 3, 4, 3, 2, 5]
      ∧ seedIndex [2, 3, 4, 3, 2, 5] 3 2 = some 1
      ∧ nextIndex [2, 3, 4, 3, 2, 5] 3 1 1 = some 1
      ∧ cell [2, 3, 4, 3, 2, 5] 3 0 0 < cell [2, 3, 4, 3, 2, 5] 3 1 0
      ∧ cell [2, 3, 4, 3, 2, 5] 3 0 0 < cell [2, 3, 4, 3, 2, 5] 3 2 0 := by
  decide

/-- C14 (the claim fails): for the 3-wide, 2-high grid with rows `[10,10,10]` and
`[10,50,10]`, `computeEnergyMap` does not yield the rows `[0,0,0]` and `[40,80,40]`. -/
theorem computeEnergyMap_scenario_counterexample :
    computeEnergyMap [10, 10, 10, 10, 50, 10] (List.replicate (3 * 2) 0) 3 2
      ≠ some [0, 0, 0, 40, 80, 40] := by
  decide

/-- C14 (amended): for the 3-wide, 2-high grid with rows `[10,10,10]` and
`[10,50,10]`, `computeEnergyMap` yields row 0 energies `[0,40,0]` and row 1
energies `[40,120,40]`: the vertical neighbour is counted in both rows. -/
theorem computeEnergyMap_scenario :
    computeEnergyMap [10, 10, 10, 10, 50, 10] (List.replicate (3 * 2) 0) 3 2
        = some [0, 40, 0, 40, 120, 40]
      ∧ gridRow [0, 40, 0, 40, 120, 40] 3 0 = [0, 40, 0]
      ∧ gridRow [0, 40, 0, 40, 120, 40] 3 1 = [40, 120, 40] := by
  decide

/-- C15 (evaluation at the scenario): for the 3-wide, 2-high grid with rows
`[10,10,10]` and `[10,50,10]` the seam is column 0 in the bottom row and column 0 in
row 0, as claimed, but `removeMinEnergyPath` leaves `[10,10,10]` and not the rows
`[10,10]` and `[50,10]`. -/
theorem removeMinEnergyPath_scenario_divergence :
    ((computeEnergyMap [10, 10, 10, 10, 50, 10] (List.replicate (3 * 2) 0) 3 2).bind
        fun e => tracedSeam e 3 2) = some [0, 0]
      ∧ ((computeEnergyMap [10, 10, 10, 10, 50, 10] (List.replicate (3 * 2) 0) 3 2).bind
        fun e => removeMinEnergyPath [10, 10, 10, 10, 50, 10] e 3 2) = some [10, 10, 10]
      ∧ [(10 : Int), 10, 10] ≠ [10, 10] ++ [50, 10] := by
  decide

/-- C16 (the claim fails): for the grid of width 0 and height 1 the trace of
`removeMinEnergyPath` completes with column 0 and the function returns a result,
the empty image. -/
theorem removeMinEnergyPath_zero_width_counterexample :
    tracedSeam [] 0 1 = some [0] ∧ removeMinEnergyPath [] [] 0 1 = some [] := by
  decide

theorem cumulativeEnergy_zero_width (energyMap : List Int) (h : Nat) :
    cumulativeEnergy energyMap 0 h = some [] := by
  unfold cumulativeEnergy
  simp only [Nat.zero_mul, List.replicate_zero, forUp_zero_iter, Option.some_bind]
  exact forUp_skip _ (fun _ _ => rfl) _ _ _

/-- C16 (amended): for a grid of width 0 and height 1 the seam tracing of
`removeMinEnergyPath` raises no error: the trace completes with column 0 and the
function returns the image unchanged. -/
theorem removeMinEnergyPath_zero_width (image energyMap : List Int) :
    tracedSeam energyMap 0 1 = some [0]
      ∧ removeMinEnergyPath image energyMap 0 1 = some image := by
  refine ⟨?_, ?_⟩
  · simp [tracedSeam, cumulativeEnergy_zero_width, seedIndex, forUp, seamTrace]
  · simp [removeMinEnergyPath, cumulativeEnergy_zero_width, seedIndex, forUp, forDown,
      eraseFirst]

/-! ## The upward steps of the trace -/

theorem seamTrace_steps {cum : List Int} {w h : Nat}
    (hlen : cum.length = w * h) (hw : 1 ≤ w) :
    ∀ (y idx : Nat), y < h → idx + y + 2 ≤ w + h →
      ∃ t, seamTrace cum w y idx = some t ∧ t.head? = some idx ∧
        StepsByComparison cum w y t ∧ List.Chain' (fun a b => a ≤ b) t := by
  intro y
  induction y with
  | zero =>
    intro idx _ _
    exact ⟨[idx], rfl, rfl, trivial, List.chain'_singleton _⟩
  | succ y ih =>
    intro idx hy hidx
    have hn := nextIndex_eq hlen hw hy hidx
    obtain ⟨t, ht, hhd, hst, hch⟩ := ih
      (idx + if cum.getD (y * w + idx) 0 < cum.getD (y * w + idx + 1) 0 then 0 else 1)
      (by omega) (by split_ifs <;> omega)
    refine ⟨idx :: t, ?_, rfl, ?_, ?_⟩
    · simp only [seamTrace, hn, ht, Option.some_bind, Option.map_some']
    · cases t with
      | nil => simp at hhd
      | cons c rest =>
        simp only [List.head?_cons, Option.some.injEq] at hhd
        refine ⟨?_, hst⟩
        rw [hhd]
        simp only [Nat.add_sub_cancel, cell]
        split_ifs <;> rfl
    · cases t with
      | nil => simp at hhd
      | cons c rest =>
        simp only [List.head?_cons, Option.some.injEq] at hhd
        rw [List.chain'_cons]
        refine ⟨?_, hch⟩
        rw [hhd]
        omega

/-- C18: for a `w × h` energy grid with `w ≥ 1` and `h ≥ 1` the trace of
`removeMinEnergyPath` returns one column per row, every upward step from column `x`
of row `y ≥ 1` goes to `x` when `cum(x, y-1)` is below the value at flat index
`(y-1) * w + x + 1` and to `x + 1` otherwise, and the tracked column never decreases
from the bottom row to row 0. -/
theorem tracedSeam_two_way (energyMap : List Int) (w h : Nat)
    (hlen : energyMap.length = w * h) (hw : 1 ≤ w) (hh : 1 ≤ h) :
    ∃ cum t, cumulativeEnergy energyMap w h = some cum ∧ tracedSeam energyMap w h = some t ∧
      t.length = h ∧ StepsByComparison cum w (h - 1) t ∧
      List.Chain' (fun a b => a ≤ b) t := by
  obtain ⟨cum, hc, hcl, _⟩ := cumulativeEnergy_cell hlen hh
  obtain ⟨s, hs, hsw, _, _⟩ := seedIndex_spec hcl hw hh
  obtain ⟨t, ht, _, hst, hch⟩ := seamTrace_steps hcl hw (h - 1) s (by omega) (by omega)
  obtain ⟨t', ht', htl, _, _⟩ := seamTrace_spec hcl hw (h - 1) s (by omega) (by omega)
  have htt : t' = t := by
    rw [ht] at ht'
    exact (Option.some.inj ht').symm
  subst htt
  refine ⟨cum, t', hc, ?_, by omega, hst, hch⟩
  simp only [tracedSeam, hc, hs, ht, Option.some_bind]

theorem tracedSeam_two_way_witness :
    [(2 : Int), 3, 4, 1, 0, 2].length = 3 * 2 ∧ 1 ≤ 3 ∧ 1 ≤ 2 ∧
      ∃ cum t, cumulativeEnergy [2, 3, 4, 1, 0, 2] 3 2 = some cum ∧
        tracedSeam [2, 3, 4, 1, 0, 2] 3 2 = some t ∧
        t.length = 2 ∧ StepsByComparison cum 3 (2 - 1) t ∧
        List.Chain' (fun a b => a ≤ b) t :=
  ⟨by decide, by decide, by decide,
    tracedSeam_two_way [2, 3, 4, 1, 0, 2] 3 2 (by decide) (by decide) (by decide)⟩

/-! ## The removal loop -/

theorem KeepsFirstRow.refl (w : Nat) (a : List Int) : KeepsFirstRow w a a :=
  ⟨rfl, fun _ _ => rfl⟩

theorem KeepsFirstRow.trans {w : Nat} {a b c : List Int}
    (h1 : KeepsFirstRow w a b) (h2 : KeepsFirstRow w b c) : KeepsFirstRow w a c :=
  ⟨h2.1.trans h1.1, fun i hi => (h2.2 i hi).trans (h1.2 i hi)⟩

/-- An assignment `v[p] = v[r]` below row 0 keeps the length and row 0. -/
theorem copy_keeps {v : List Int} (w : Nat) {r p : Nat}
    (hr : r < v.length) (hp : p < v.length) (hwp : w ≤ p) :
    ∃ v', ((readAt v r).bind fun x => writeAt v p x) = some v' ∧ KeepsFirstRow w v v' := by
  refine ⟨v.set p (v.getD r 0), ?_, by simp, ?_⟩
  · rw [readAt_of_lt hr]
    simp only [Option.some_bind, writeAt_of_lt _ hp]
  · intro i hi
    exact List.getElem?_set_ne (by omega)

theorem row_index_lt {w h r idx : Nat} (hw : 1 ≤ w) (hr : r < h)
    (hidx : idx + r + 2 ≤ w + h) : r * w + idx < w * h := by
  obtain ⟨k, rfl⟩ : ∃ k, h = r + k := ⟨h - r, by omega⟩
  have e : w * (r + k) = r * w + w * k := by ring
  have := two_le_mul hw (show 1 ≤ k by omega)
  omega

theorem shiftRow_spec {img : List Int} {w h r idx : Nat}
    (hlen : img.length = w * h) (hw : 1 ≤ w) (hr1 : 1 ≤ r) (hr : r < h)
    (hidx : idx + r + 2 ≤ w + h) :
    ∃ img', shiftRow w r idx img = some img' ∧ KeepsFirstRow w img img' := by
  have hrw : w ≤ r * w := Nat.le_mul_of_pos_left w hr1
  obtain ⟨img1, h1, k1⟩ := forUp_inv (shiftCell w r) (fun _ v => KeepsFirstRow w img v)
    (w - 1 - idx) idx img (KeepsFirstRow.refl w img)
    (by
      intro x v hx1 hx2 hv
      have hxw : x + 1 < w := by omega
      have b1 : r * w + x + 1 < v.length := by
        rw [hv.1, hlen]
        have := flat_lt hxw hr
        omega
      obtain ⟨v', e, k⟩ := copy_keeps w b1 (show r * w + x < v.length by omega)
        (by omega)
      exact ⟨v', e, hv.trans k⟩)
  have l1 : img1.length = w * h := by rw [k1.1, hlen]
  obtain ⟨img2, h2, k2⟩ : ∃ img2, (if idx > 0 then
      (readAt img1 (r * w + idx)).bind fun v => writeAt img1 (r * w + idx - 1) v
      else some img1) = some img2 ∧ KeepsFirstRow w img img2 := by
    by_cases c : idx > 0
    · simp only [c, if_true]
      have b := row_index_lt hw hr hidx
      obtain ⟨v', e, k⟩ := copy_keeps w (show r * w + idx < img1.length by omega)
        (show r * w + idx - 1 < img1.length by omega) (by omega)
      exact ⟨v', e, k1.trans k⟩
    · simp only [c, if_false]
      exact ⟨img1, rfl, k1⟩
  have l2 : img2.length = w * h := by rw [k2.1, hlen]
  obtain ⟨img3, h3, k3⟩ : ∃ img3, (if idx < w - 1 then
      (readAt img2 (r * w + idx + 1)).bind fun v => writeAt img2 (r * w + idx) v
      else some img2) = some img3 ∧ KeepsFirstRow w img img3 := by
    by_cases c : idx < w - 1
    · simp only [c, if_true]
      have b : r * w + (idx + 1) < w * h := flat_lt (by omega) hr
      obtain ⟨v', e, k⟩ := copy_keeps w (show r * w + idx + 1 < img2.length by omega)
        (show r * w + idx < img2.length by omega) (by omega)
      exact ⟨v', e, k2.trans k⟩
    · simp only [c, if_false]
      exact ⟨img2, rfl, k2⟩
  refine ⟨img3, ?_, k3⟩
  unfold shiftRow
  rw [h1]
  simp only [Option.some_bind]
  rw [h2]
  simp only [Option.some_bind]
  exact h3

theorem removeLoop_spec {cum image : List Int} {w h seed : Nat}
    (hcum : cum.length = w * h) (himg : image.length = w * h) (hw : 1 ≤ w) (hh : 1 ≤ h)
    (hseed : seed < w) :
    ∃ post, forDown (removeBody cum w) (h - 1) (image, seed) = some post ∧
      KeepsFirstRow w image post.1 := by
  obtain ⟨post, hp, _, _, hk⟩ := forDown_inv (removeBody cum w)
    (fun y s => s.1.length = w * h ∧ s.2 + y + 2 ≤ w + h ∧ KeepsFirstRow w image s.1)
    (h - 1) (image, seed) ⟨himg, by simp only; omega, KeepsFirstRow.refl w image⟩
    (by
      intro y s hy ⟨hl, hb, hk⟩
      obtain ⟨img', e1, k1⟩ := shiftRow_spec hl hw (show 1 ≤ y + 1 by omega)
        (show y + 1 < h by omega) hb
      have e2 := nextIndex_eq hcum hw (show y + 1 < h by omega) hb
      refine ⟨(img', s.2 +
        if cum.getD (y * w + s.2) 0 < cum.getD (y * w + s.2 + 1) 0 then 0 else 1),
        ?_, ?_, ?_, hk.trans k1⟩
      · simp only [removeBody, e1, e2, Option.some_bind, Option.map_some']
      · show img'.length = w * h
        rw [k1.1, hl]
      · show (s.2 + if cum.getD (y * w + s.2) 0 < cum.getD (y * w + s.2 + 1) 0 then 0 else 1)
          + y + 2 ≤ w + h
        split_ifs <;> omega)
  exact ⟨post, hp, hk⟩

/-- C19: for `w ≥ 1`, `h ≥ 1` and an image and an energy map of exactly `w * h`
elements, `removeMinEnergyPath` runs to its end: the cumulative map and the image
keep `w * h` elements throughout, no read or write on the image, the energy map or
the cumulative map leaves `[0, w * h)` (an access outside would end the run without
a result), and the final erase of `w` elements is inside the vector. -/
theorem removeMinEnergyPath_in_bounds (image energyMap : List Int) (w h : Nat)
    (himg : image.length = w * h) (hen : energyMap.length = w * h)
    (hw : 1 ≤ w) (hh : 1 ≤ h) :
    ∃ cum seed post out, cumulativeEnergy energyMap w h = some cum ∧ cum.length = w * h ∧
      seedIndex cum w h = some seed ∧
      forDown (removeBody cum w) (h - 1) (image, seed) = some post ∧
      post.1.length = w * h ∧ w ≤ post.1.length ∧
      removeMinEnergyPath image energyMap w h = some out := by
  obtain ⟨cum, hc, hcl, _⟩ := cumulativeEnergy_cell hen hh
  obtain ⟨seed, hs, hsw, _, _⟩ := seedIndex_spec hcl hw hh
  obtain ⟨post, hp, hk⟩ := removeLoop_spec hcl himg hw hh hsw
  have hpl : post.1.length = w * h := by rw [hk.1, himg]
  have hwl : w ≤ post.1.length := by rw [hpl]; exact Nat.le_mul_of_pos_right w hh
  refine ⟨cum, seed, post, post.1.drop w, hc, hcl, hs, hp, hpl, hwl, ?_⟩
  simp only [removeMinEnergyPath, hc, hs, hp, Option.some_bind, eraseFirst, hwl, if_true]

theorem removeMinEnergyPath_in_bounds_witness :
    [(1 : Int), 2, 3].length = 1 * 3 ∧ [(0 : Int), 0, 0].length = 1 * 3 ∧ 1 ≤ 1 ∧ 1 ≤ 3 ∧
      ∃ cum seed post out, cumulativeEnergy [0, 0, 0] 1 3 = some cum ∧ cum.length = 1 * 3 ∧
        seedIndex cum 1 3 = some seed ∧
        forDown (removeBody cum 1) (3 - 1) ([1, 2, 3], seed) = some post ∧
        post.1.length = 1 * 3 ∧ 1 ≤ post.1.length ∧
        removeMinEnergyPath [1, 2, 3] [0, 0, 0] 1 3 = some out :=
  ⟨by decide, by decide, by decide, by decide,
    removeMinEnergyPath_in_bounds [1, 2, 3] [0, 0, 0] 1 3
      (by decide) (by decide) (by decide) (by decide)⟩

/-- C20: for `w ≥ 1`, `h ≥ 1`, an image and an energy map of `w * h` elements,
`removeMinEnergyPath` returns an image of exactly `w * (h - 1)` elements: the removal
loop leaves row 0 as it was, the result is the post-loop image without its first `w`
elements, so that output element `i` is the post-loop element `i + w`, and for
`h = 1` the result is the empty image. -/
theorem removeMinEnergyPath_result (image energyMap : List Int) (w h : Nat)
    (himg : image.length = w * h) (hen : energyMap.length = w * h)
    (hw : 1 ≤ w) (hh : 1 ≤ h) :
    ∃ cum seed post out, cumulativeEnergy energyMap w h = some cum ∧
      seedIndex cum w h = some seed ∧
      forDown (removeBody cum w) (h - 1) (image, seed) = some post ∧
      removeMinEnergyPath image energyMap w h = some out ∧
      gridRow post.1 w 0 = gridRow image w 0 ∧
      out.length = w * (h - 1) ∧
      out = post.1.drop w ∧
      (∀ i, out[i]? = post.1[i + w]?) ∧
      (h = 1 → out = []) := by
  obtain ⟨cum, hc, hcl, _⟩ := cumulativeEnergy_cell hen hh
  obtain ⟨seed, hs, hsw, _, _⟩ := seedIndex_spec hcl hw hh
  obtain ⟨post, hp, hk⟩ := removeLoop_spec hcl himg hw hh hsw
  have hpl : post.1.length = w * h := by rw [hk.1, himg]
  have hwl : w ≤ post.1.length := by rw [hpl]; exact Nat.le_mul_of_pos_right w hh
  have hol : (post.1.drop w).length = w * (h - 1) := by
    rw [List.length_drop, hpl, Nat.mul_sub_one]
  refine ⟨cum, seed, post, post.1.drop w, hc, hs, hp, ?_, ?_, hol, rfl, ?_, ?_⟩
  · simp only [removeMinEnergyPath, hc, hs, hp, Option.some_bind, eraseFirst, hwl, if_true]
  · unfold gridRow
    simp only [Nat.zero_mul, List.drop_zero]
    apply List.ext_getElem?
    intro n
    simp only [List.getElem?_take]
    by_cases c : n < w
    · simp only [c, if_true]; exact hk.2 n c
    · simp only [c, if_false]
  · intro i
    rw [List.getElem?_drop, Nat.add_comm]
  · intro h1
    subst h1
    simp only [Nat.sub_self, Nat.mul_zero] at hol
    exact List.length_eq_zero.mp hol

theorem removeMinEnergyPath_result_witness :
    [(1 : Int), 2, 3, 4, 5, 6].length = 3 * 2 ∧ [(4 : Int), 5, 4, 4, 5, 4].length = 3 * 2 ∧
      1 ≤ 3 ∧ 1 ≤ 2 ∧
      ∃ cum seed post out, cumulativeEnergy [4, 5, 4, 4, 5, 4] 3 2 = some cum ∧
        seedIndex cum 3 2 = some seed ∧
        forDown (removeBody cum 3) (2 - 1) ([1, 2, 3, 4, 5, 6], seed) = some post ∧
        removeMinEnergyPath [1, 2, 3, 4, 5, 6] [4, 5, 4, 4, 5, 4] 3 2 = some out ∧
        gridRow post.1 3 0 = gridRow [1, 2, 3, 4, 5, 6] 3 0 ∧
        out.length = 3 * (2 - 1) ∧
        out = post.1.drop 3 ∧
        (∀ i, out[i]? = post.1[i + 3]?) ∧
        (2 = 1 → out = []) :=
  ⟨by decide, by decide, by decide, by decide,
    removeMinEnergyPath_result [1, 2, 3, 4, 5, 6] [4, 5, 4, 4, 5, 4] 3 2
      (by decide) (by decide) (by decide) (by decide)⟩

end SeamCarving
